import Mathlib

/-!
Verification development for the distributed HA image-crawler repository.

The definitions below are shallow embeddings of the Python source:

* `src/database/distributed_ha_manager.py` — replication, full reconciliation,
  sequence management, health checks, failover target selection, the
  auto-sync session and model serialization;
* `src/database/failover_manager.py` — failure detection threshold and
  failover event history;
* `src/crawler/core/downloader.py` — image download and validation;
* `src/crawler/utils/url_parser.py` — URL normalization (together with the
  parts of CPython `urllib.parse` that it calls).

Machine strings are modelled as `List Char`; database tables as lists of
rows; the replication queue as a list.  All definitions are executable.
-/

namespace CrawlImage

/-- A row of a replicated table as seen by the reconciliation engine.
`id` is the integer primary key, `updatedAt` the `updated_at` timestamp
(abstracted to a number), `content` abstracts all remaining columns. -/
structure Row where
  id : Nat
  updatedAt : Nat
  content : Nat
  deriving Repr, DecidableEq

/-- Embedding of `SELECT COALESCE(MAX(id), 0) FROM table` (used by
`_sync_table_missing_records` and `_update_sequence_after_sync`). -/
def maxId (t : List Row) : Nat :=
  t.foldr (fun r m => max r.id m) 0

/-- Insertion of a row into an id-sorted list (helper for `sortById`). -/
def insertById (r : Row) : List Row → List Row
  | [] => [r]
  | x :: xs => if r.id ≤ x.id then r :: x :: xs else x :: insertById r xs

/-- Embedding of `ORDER BY id` over a table. -/
def sortById (t : List Row) : List Row :=
  t.foldr insertById []

/-- Embedding of the record selection in `_sync_table_missing_records` /
`_get_records_above_id`: `filter(id > min_id).order_by(id).limit(limit)`. -/
def recordsAboveId (t : List Row) (minId limit : Nat) : List Row :=
  ((sortById t).filter (fun r => decide (minId < r.id))).take limit

/-- Embedding of `INSERT ... ON CONFLICT (id) DO UPDATE SET col = EXCLUDED.col`:
if a row with the same id exists it is replaced, otherwise the row is appended. -/
def upsertRow (t : List Row) (r : Row) : List Row :=
  if t.any (fun x => x.id = r.id) then
    t.map (fun x => if x.id = r.id then r else x)
  else t ++ [r]

/-- Applying a batch of upserts in order (the per-record loop of
`_sync_table_missing_records` and its reverse variant). -/
def bulkUpsert (t : List Row) (rs : List Row) : List Row :=
  rs.foldl upsertRow t

/-- Embedding of `SELECT id, updated_at FROM table ORDER BY id DESC LIMIT n`
(`n` is 5 in `_check_latest_records_consistency` and 10 in
`_sync_table_content_differences`). -/
def latestRows (t : List Row) (n : Nat) : List (Nat × Nat) :=
  (((sortById t).reverse).take n).map (fun r => (r.id, r.updatedAt))

/-- Embedding of `_get_record_by_id`. -/
def getRecordById (t : List Row) (i : Nat) : Option Row :=
  t.find? (fun r => decide (r.id = i))

/-- Embedding of `_sync_single_record`: fetch the row from the primary by id
and upsert it into the target; a missing row leaves the target unchanged. -/
def syncSingleRecord (primary target : List Row) (i : Nat) : List Row :=
  match getRecordById primary i with
  | some r => upsertRow target r
  | none => target

/-- Embedding of the id-difference computation of
`_sync_table_content_differences`: the latest 10 `(id, updated_at)` pairs of
the primary that are not among the latest 10 of the target. -/
def contentDiffIds (primary target : List Row) : List Nat :=
  let pl := latestRows primary 10
  let tl := latestRows target 10
  (pl.filter (fun k => decide (¬ k ∈ tl))).map Prod.fst

/-- Embedding of `_sync_table_content_differences`: per-id content sync of
the differing latest rows, primary to target. -/
def syncContentDifferences (primary target : List Row) : List Row :=
  (contentDiffIds primary target).foldl (fun t i => syncSingleRecord primary t i) target

/-- Embedding of the per-table direction selection in
`_sync_bidirectional_data` (returns the new primary and secondary tables). -/
def syncBidirectionalTable (primary secondary : List Row) : List Row × List Row :=
  let pc := primary.length
  let sc := secondary.length
  if sc < pc then
    (primary, bulkUpsert secondary (recordsAboveId primary (maxId secondary) (pc - sc)))
  else if pc < sc then
    (bulkUpsert primary (recordsAboveId secondary (maxId primary) (sc - pc)), secondary)
  else if 0 < pc then
    (primary, syncContentDifferences primary secondary)
  else
    (primary, secondary)

/-- Embedding of `SELECT MIN(id) FROM table` (`NULL` on an empty table). -/
def minIdOpt (t : List Row) : Option Nat :=
  (sortById t).head?.map Row.id

/-- Embedding of `SELECT MAX(id) FROM table` (`NULL` on an empty table). -/
def maxIdOpt (t : List Row) : Option Nat :=
  ((sortById t).getLast?).map Row.id

/-- Embedding of `_deep_check_data_consistency` for one table: a count
mismatch, a latest-5-rows mismatch (only checked on non-empty tables), or an
id-range mismatch counts as an inconsistency. -/
def deepInconsistent (primary secondary : List Row) : Bool :=
  decide (primary.length ≠ secondary.length) ||
    (decide (0 < primary.length) &&
      decide ((latestRows primary 5).toFinset ≠ (latestRows secondary 5).toFinset)) ||
    decide ((minIdOpt primary, maxIdOpt primary) ≠ (minIdOpt secondary, maxIdOpt secondary))

/-- State carried by the full-sync loop of `DistributedHAManager` for one
secondary node and one replicated table.  Node names are numbers. -/
structure FullSyncState where
  currentPrimary : Nat
  localNode : Nat
  lastFullSync : Nat
  fullSyncInterval : Nat
  primaryTable : List Row
  secondaryTable : List Row
  deriving Repr, DecidableEq

/-- Embedding of one iteration of `_full_sync_loop` followed by
`_check_and_sync_data`: when the interval has elapsed and the local node is
the current primary, a deep consistency check runs and, on inconsistency,
the bidirectional sync; `last_full_sync` is updated only in that case. -/
def fullSyncLoopIteration (st : FullSyncState) (now : Nat) : FullSyncState :=
  if st.fullSyncInterval ≤ now - st.lastFullSync then
    if st.currentPrimary = st.localNode then
      let ps :=
        if deepInconsistent st.primaryTable st.secondaryTable then
          syncBidirectionalTable st.primaryTable st.secondaryTable
        else (st.primaryTable, st.secondaryTable)
      { st with primaryTable := ps.1, secondaryTable := ps.2, lastFullSync := now }
    else st
  else st

/-- A node's copy of one replicated table together with its PostgreSQL
id-sequence (`last_value` of `<table>_id_seq`). -/
structure NodeTable where
  rows : List Row
  seq : Nat
  deriving Repr, DecidableEq

/-- Embedding of `_update_sequence_after_sync`: set the sequence to
`max(id) + 1` when the table's max id is positive. -/
def updateSequenceAfterSync (t : NodeTable) : NodeTable :=
  if 0 < maxId t.rows then { t with seq := maxId t.rows + 1 } else t

/-- Embedding of the receiving side of `_sync_table_missing_records`: upsert
every transferred record, then (when at least one record was synced) refresh
the sequence via `_update_sequence_after_sync`. -/
def applyBulkSync (t : NodeTable) (records : List Row) : NodeTable :=
  let t1 : NodeTable := { t with rows := bulkUpsert t.rows records }
  if 0 < records.length then updateSequenceAfterSync t1 else t1

/-- Embedding of `_sync_sequence_for_insert`: bump the sequence to
`record_id + 1` when the inserted id is at least the current sequence value. -/
def syncSequenceForInsert (t : NodeTable) (recordId : Nat) : NodeTable :=
  if t.seq ≤ recordId then { t with seq := recordId + 1 } else t

/-- Embedding of `_execute_insert_operation` on the receiving node: upsert
the row, then synchronize the sequence for the inserted id. -/
def executeInsertOperation (t : NodeTable) (r : Row) : NodeTable :=
  syncSequenceForInsert { t with rows := upsertRow t.rows r } r.id

/-- A Python column value as held by a model instance
(`None`, int, str, datetime, or a dict/list JSON container; timestamps and
containers are abstracted to numbers). -/
inductive PyVal where
  | pynone
  | pyint (n : Int)
  | pystr (s : String)
  | pydatetime (t : Nat)
  | pyjson (j : Nat)
  deriving Repr, DecidableEq

/-- A serialized payload value as produced by `_serialize_model`:
a verbatim scalar, an ISO-8601 text for a timestamp, or a JSON text for a
dict/list.  There is no null constructor: `None` columns are never emitted. -/
inductive SerializedVal where
  | rawInt (n : Int)
  | rawStr (s : String)
  | isoText (t : Nat)
  | jsonText (j : Nat)
  deriving Repr, DecidableEq

/-- Embedding of the per-column branch of `_serialize_model`: `None` is
skipped; a value with `isoformat` (a datetime) becomes ISO-8601 text; a
dict/list becomes JSON text; anything else is passed verbatim. -/
def serializeValue : PyVal → Option SerializedVal
  | .pynone => none
  | .pyint n => some (.rawInt n)
  | .pystr s => some (.rawStr s)
  | .pydatetime t => some (.isoText t)
  | .pyjson j => some (.jsonText j)

/-- A model instance: its table name and its columns with their values. -/
structure ModelInstance where
  tableName : String
  columns : List (String × PyVal)
  deriving Repr, DecidableEq

/-- Embedding of `_serialize_model`: every column whose value is not `None`
is serialized into the payload, in column order. -/
def serializeModel (m : ModelInstance) : List (String × SerializedVal) :=
  m.columns.filterMap (fun c => (serializeValue c.2).map (fun v => (c.1, v)))

/-- Value bound as a SQL parameter on the receiving node for a serialized
payload entry (never a NULL). -/
def bindValue : SerializedVal → PyVal
  | .rawInt n => .pyint n
  | .rawStr s => .pystr s
  | .isoText t => .pydatetime t
  | .jsonText j => .pyjson j

/-- Embedding of the SET-clause list built by `_execute_update_operation`:
every payload column except `id`. -/
def updateSetClauses (data : List (String × SerializedVal)) : List (String × SerializedVal) :=
  data.filter (fun c => decide (c.1 ≠ "id"))

/-- Effect of the `UPDATE ... SET ... WHERE id = ...` built by
`_execute_update_operation` on the matched row of the receiving node:
columns named in the SET list take the bound value, others are unchanged. -/
def applyUpdateToRow (row : List (String × PyVal)) (data : List (String × SerializedVal)) :
    List (String × PyVal) :=
  row.map (fun c =>
    match (updateSetClauses data).lookup c.1 with
    | some v => (c.1, bindValue v)
    | none => c)

/-- Embedding of the `SyncOperation` dataclass of
`distributed_ha_manager.py` (the replication-log element). -/
structure SyncOperation where
  operationId : Nat
  operationType : String
  tableName : String
  data : List (String × SerializedVal)
  sourceNode : String
  targetNodes : List String
  status : String
  deriving Repr, DecidableEq

/-- Embedding of `add_sync_operation`'s queue update: the operation is
appended under the lock; no bound is checked. -/
def addSyncOperation (queue : List SyncOperation) (op : SyncOperation) : List SyncOperation :=
  queue ++ [op]

/-- The part of the HA manager visible to `add_sync_operation`: the local
node name and the names of the current secondary nodes. -/
structure HAEnv where
  localNodeName : String
  secondaryNodes : List String
  deriving Repr, DecidableEq

/-- Construction of the `SyncOperation` appended by `add_sync_operation`
(`operation_id` is the enqueue timestamp in ms, abstracted to a number). -/
def mkSyncOperation (env : HAEnv) (nowMs : Nat) (opType tblName : String)
    (data : List (String × SerializedVal)) : SyncOperation :=
  { operationId := nowMs
    operationType := opType
    tableName := tblName
    data := data
    sourceNode := env.localNodeName
    targetNodes := env.secondaryNodes
    status := "pending" }

/-- Kind of a pending operation recorded by the auto-sync session. -/
inductive PendingKind where
  | insertKind
  | updateKind
  | deleteKind
  deriving Repr, DecidableEq

/-- A pending operation of `AutoSyncSession` (`type`, `table`, `instance`). -/
structure PendingOp where
  kind : PendingKind
  table : String
  inst : ModelInstance
  deriving Repr, DecidableEq

/-- Payload of the DELETE sync operation built by `_sync_delete_operation`:
the dictionary `{id: instance.id}` (the instance carries an integer id for
every committed model). -/
def syncDeleteData (m : ModelInstance) : List (String × SerializedVal) :=
  match m.columns.lookup "id" with
  | some (.pyint n) => [("id", .rawInt n)]
  | _ => []

/-- Embedding of `_process_pending_sync_operations` for one pending
operation: serialize it and append the matching sync operation to the
replication queue (`_sync_insert_operation` / `_sync_update_operation` /
`_sync_delete_operation`). -/
def processPendingOp (env : HAEnv) (nowMs : Nat) (queue : List SyncOperation)
    (op : PendingOp) : List SyncOperation :=
  match op.kind with
  | .insertKind =>
      addSyncOperation queue (mkSyncOperation env nowMs "INSERT" op.table (serializeModel op.inst))
  | .updateKind =>
      addSyncOperation queue (mkSyncOperation env nowMs "UPDATE" op.table (serializeModel op.inst))
  | .deleteKind =>
      addSyncOperation queue (mkSyncOperation env nowMs "DELETE" op.table (syncDeleteData op.inst))

/-- State of an `AutoSyncSession` relevant to `commit`: its pending
operations and the HA manager's replication queue. -/
structure AutoSyncSessionState where
  pending : List PendingOp
  syncQueue : List SyncOperation
  deriving Repr, DecidableEq

/-- Outcome of `AutoSyncSession.commit`: either the local commit succeeded,
or it raised (the session was rolled back and the exception re-raised). -/
inductive CommitResult where
  | ok
  | raised
  deriving Repr, DecidableEq

/-- Embedding of `AutoSyncSession.commit`.  `localCommitOk` is whether
`self.session.commit()` succeeds.  On success every pending operation is
serialized and appended to the replication queue and the pending list is
cleared; on failure the session is rolled back and the exception re-raised,
and the pending list is left as it was. -/
def commitAutoSync (env : HAEnv) (nowMs : Nat) (st : AutoSyncSessionState)
    (localCommitOk : Bool) : CommitResult × AutoSyncSessionState :=
  if localCommitOk then
    (.ok, { pending := [], syncQueue := st.pending.foldl (processPendingOp env nowMs) st.syncQueue })
  else
    (.raised, st)

/-- Embedding of the `DatabaseRole` enum. -/
inductive DatabaseRole where
  | primaryRole
  | secondaryRole
  | standbyRole
  deriving Repr, DecidableEq

/-- Embedding of the `HealthStatus` enum. -/
inductive HealthStatus where
  | healthy
  | warning
  | critical
  | offline
  deriving Repr, DecidableEq

/-- The fields of a `DatabaseNode` used by health checking and failover. -/
structure DatabaseNode where
  name : Nat
  role : DatabaseRole
  priority : Nat
  healthStatus : HealthStatus
  failureCount : Nat
  failureThreshold : Nat
  lastCheck : Option Nat
  deriving Repr, DecidableEq

/-- Embedding of `_is_node_healthy`: `HEALTHY` or `WARNING`. -/
def isNodeHealthy (n : DatabaseNode) : Bool :=
  decide (n.healthStatus = .healthy) || decide (n.healthStatus = .warning)

/-- Embedding of `_check_node_health` for one node and one probe result
(`probeOk` is the outcome of `_test_node_connection`, `now` the probe time).
On success the failure counter is reset and an `OFFLINE` node is restored to
`HEALTHY`; on failure the counter is incremented and the node is marked
`OFFLINE` at the threshold, `WARNING` above one failure.  `last_check` is
updated in both branches. -/
def checkNodeHealth (node : DatabaseNode) (probeOk : Bool) (now : Nat) : DatabaseNode :=
  if probeOk then
    let n1 : DatabaseNode := { node with failureCount := 0 }
    let n2 : DatabaseNode :=
      if n1.healthStatus = .offline then { n1 with healthStatus := .healthy } else n1
    { n2 with lastCheck := some now }
  else
    let c := node.failureCount + 1
    let n1 : DatabaseNode := { node with failureCount := c }
    let n2 : DatabaseNode :=
      if node.failureThreshold ≤ c then
        if n1.healthStatus ≠ .offline then { n1 with healthStatus := .offline } else n1
      else if 1 < c then { n1 with healthStatus := .warning }
      else n1
    { n2 with lastCheck := some now }

/-- First element with the minimal value of `f` (the head of a stable
ascending sort, as produced by Python's `list.sort(key=...)`). -/
def firstMinBy {α : Type} (f : α → Nat) : List α → Option α
  | [] => none
  | x :: xs =>
    match firstMinBy f xs with
    | none => some x
    | some m => if f m < f x then some m else some x

/-- Embedding of the candidate filter of `_attempt_failover`: nodes other
than the failed primary that are currently healthy and have role
`SECONDARY` or `STANDBY`. -/
def failoverCandidates (nodes : List DatabaseNode) (failedPrimary : Nat) : List DatabaseNode :=
  nodes.filter (fun n =>
    decide (n.name ≠ failedPrimary) && isNodeHealthy n &&
      (decide (n.role = .secondaryRole) || decide (n.role = .standbyRole)))

/-- Role swap performed by `_execute_failover`: the failed node becomes
`SECONDARY`, the target becomes `PRIMARY`. -/
def executeFailoverRoles (nodes : List DatabaseNode) (failed target : Nat) : List DatabaseNode :=
  nodes.map (fun n =>
    if n.name = failed then { n with role := .secondaryRole }
    else if n.name = target then { n with role := .primaryRole }
    else n)

/-- Embedding of `_attempt_failover`: pick the smallest-priority candidate
and swap roles; with no candidate, return leaving every role unchanged. -/
def attemptFailover (nodes : List DatabaseNode) (failedPrimary : Nat) :
    List DatabaseNode × Option Nat :=
  match firstMinBy DatabaseNode.priority (failoverCandidates nodes failedPrimary) with
  | none => (nodes, none)
  | some tgt => (executeFailoverRoles nodes failedPrimary tgt.name, some tgt.name)

/-- Embedding of the `FailoverStatus` enum of `failover_manager.py`. -/
inductive FailoverStatus where
  | statusNormal
  | statusDetecting
  | statusSwitching
  | statusFailed
  | statusCompleted
  deriving Repr, DecidableEq

/-- Embedding of the `FailoverEvent` dataclass of `failover_manager.py`
(timestamps and durations abstracted away). -/
structure FailoverEvent where
  sourceDb : String
  targetDb : String
  reason : String
  status : FailoverStatus
  errorMessage : Option String
  deriving Repr, DecidableEq

/-- Embedding of `_record_failover_event`: append, then keep only the last
`max_history_size` (100) events. -/
def recordFailoverEvent (history : List FailoverEvent) (e : FailoverEvent) : List FailoverEvent :=
  let h := history ++ [e]
  if 100 < h.length then h.drop (h.length - 100) else h

/-- The fields of the backup manager's `DatabaseConfig` used by
`_select_failover_target` (`connectable` is the outcome of
`_test_database_connection`). -/
structure FoDatabaseConfig where
  name : String
  priority : Nat
  isActive : Bool
  connectable : Bool
  deriving Repr, DecidableEq

/-- Embedding of `_select_failover_target` of `failover_manager.py`:
active, connectable databases other than the failed one, smallest priority
first. -/
def selectFailoverTarget (dbs : List FoDatabaseConfig) (failedDb : String) : Option String :=
  (firstMinBy FoDatabaseConfig.priority
      (dbs.filter (fun c => decide (c.name ≠ failedDb) && c.isActive && c.connectable))).map
    FoDatabaseConfig.name

/-- Embedding of `_trigger_automatic_failover`: with a target, proceed to
`execute_failover` (returned as `some target`); with none, record a FAILED
failover event and stop. -/
def triggerAutomaticFailover (history : List FailoverEvent) (dbs : List FoDatabaseConfig)
    (failedDb reason : String) : List FailoverEvent × Option String :=
  match selectFailoverTarget dbs failedDb with
  | some t => (history, some t)
  | none =>
      (recordFailoverEvent history
        { sourceDb := failedDb, targetDb := "", reason := reason,
          status := .statusFailed, errorMessage := some "no available target database" },
        none)

/-- Embedding of `_check_primary_database` of `failover_manager.py` as a
step on `(failure count, failover triggered)`.  A successful probe resets
the counter; a failed probe increments it and triggers the automatic
failover once the count reaches `detection_threshold`. -/
def checkPrimaryStep (threshold : Nat) (st : Nat × Bool) (probeOk : Bool) : Nat × Bool :=
  if probeOk then (0, st.2)
  else
    let c := st.1 + 1
    (c, st.2 || decide (threshold ≤ c))

/-- Folding a probe history through `_check_primary_database`, starting
with a zero failure count and no failover triggered. -/
def runPrimaryProbes (threshold : Nat) (probes : List Bool) : Nat × Bool :=
  probes.foldl (checkPrimaryStep threshold) (0, false)

/-- The validation-relevant facts about a downloaded payload: its byte
size, whether PIL can decode it, and its pixel dimensions. -/
structure ImagePayload where
  byteSize : Nat
  decodable : Bool
  width : Nat
  height : Nat
  deriving Repr, DecidableEq

/-- Embedding of `_validate_image` on a file that exists with the given
payload: empty or sub-100-byte files, undecodable data, and images smaller
than 10 pixels in either dimension fail. -/
def validateImage (p : ImagePayload) : Bool :=
  if p.byteSize = 0 then false
  else if p.byteSize < 100 then false
  else if ¬ p.decodable then false
  else if p.width < 10 ∨ p.height < 10 then false
  else true

/-- A filesystem event performed by `download_image` under
`download_path`. -/
inductive FsEvent where
  | writeFile (path : String) (payload : ImagePayload)
  | removeFile (path : String)
  deriving Repr, DecidableEq

/-- Applying one filesystem event to a directory (an association list from
path to payload). -/
def applyFsEvent (fs : List (String × ImagePayload)) : FsEvent → List (String × ImagePayload)
  | .writeFile p c => (p, c) :: fs.filter (fun e => decide (e.1 ≠ p))
  | .removeFile p => fs.filter (fun e => decide (e.1 ≠ p))

/-- Applying a list of filesystem events in order. -/
def applyFsEvents (fs : List (String × ImagePayload)) (events : List FsEvent) :
    List (String × ImagePayload) :=
  events.foldl applyFsEvent fs

/-- The payload stored at a path, if any. -/
def fileAt (fs : List (String × ImagePayload)) (p : String) : Option ImagePayload :=
  (fs.find? (fun e => decide (e.1 = p))).map Prod.snd

/-- Embedding of the filesystem side of one HTTP-200 download attempt in
`download_image` when the target file does not already exist: the response
body is written directly to the final path (`local_path`), then validated
in place; a payload failing validation is unlinked from that same path. -/
def downloadAttemptEvents (finalPath : String) (payload : ImagePayload) : List FsEvent :=
  FsEvent.writeFile finalPath payload ::
    (if validateImage payload then [] else [FsEvent.removeFile finalPath])

/-- Success flag of the attempt (`result['success']`): exactly the
validation outcome. -/
def downloadAttemptSucceeds (payload : ImagePayload) : Bool :=
  validateImage payload

/-- Character lists standing for Python strings. -/
abbrev Chars := List Char

/-- The characters of a Lean string literal, as a `Chars`. -/
def strChars (s : String) : Chars := s.data

/-- The ASCII whitespace stripped by Python `str.strip()`. -/
def pySpace (c : Char) : Bool :=
  c = ' ' || c = '\t' || c = '\n' || c = '\r' || c = '\x0b' || c = '\x0c'

/-- Embedding of `str.strip()` (ASCII whitespace). -/
def pyStrip (s : Chars) : Chars :=
  ((s.dropWhile pySpace).reverse.dropWhile pySpace).reverse

/-- The `_WHATWG_C0_CONTROL_OR_SPACE` class left-stripped by
`urllib.parse.urlsplit`. -/
def c0OrSpace (c : Char) : Bool :=
  c.toNat ≤ 32

/-- The `_UNSAFE_URL_BYTES_TO_REMOVE` of `urllib.parse` (tab, CR, LF). -/
def unsafeUrlByte (c : Char) : Bool :=
  c = '\t' || c = '\r' || c = '\n'

/-- Removal of tab, CR and LF performed by `urlsplit` on the whole URL. -/
def removeUnsafeUrlBytes (s : Chars) : Chars :=
  s.filter (fun c => ! unsafeUrlByte c)

/-- Splitting at the first occurrence of a character: `some (a, b)` with
the input equal to `a ++ c :: b` and `c` not in `a`; `none` when absent. -/
def splitFirst (c : Char) : Chars → Option (Chars × Chars)
  | [] => none
  | x :: xs =>
    if x = c then some ([], xs)
    else
      match splitFirst c xs with
      | some (a, b) => some (x :: a, b)
      | none => none

/-- Splitting at the last occurrence of a character: `some (a, b)` with the
input equal to `a ++ c :: b` and `c` not in `b`; `none` when absent. -/
def splitLast (c : Char) : Chars → Option (Chars × Chars)
  | [] => none
  | x :: xs =>
    match splitLast c xs with
    | some (a, b) => some (x :: a, b)
    | none => if x = c then some ([], xs) else none

/-- The `scheme_chars` of `urllib.parse` (ASCII letters and digits, plus,
minus, dot). -/
def schemeChar (c : Char) : Bool :=
  c.isAlpha || c.isDigit || c = '+' || c = '-' || c = '.'

/-- The delimiters ending the netloc in `_splitnetloc`. -/
def netlocDelim (c : Char) : Bool :=
  c = '/' || c = '?' || c = '#'

/-- ASCII lowercase of one character, as applied by Python `str.lower()`
to the characters occurring in URLs. -/
def lowerChar (c : Char) : Char :=
  if c = 'A' then 'a' else if c = 'B' then 'b' else if c = 'C' then 'c'
  else if c = 'D' then 'd' else if c = 'E' then 'e' else if c = 'F' then 'f'
  else if c = 'G' then 'g' else if c = 'H' then 'h' else if c = 'I' then 'i'
  else if c = 'J' then 'j' else if c = 'K' then 'k' else if c = 'L' then 'l'
  else if c = 'M' then 'm' else if c = 'N' then 'n' else if c = 'O' then 'o'
  else if c = 'P' then 'p' else if c = 'Q' then 'q' else if c = 'R' then 'r'
  else if c = 'S' then 's' else if c = 'T' then 't' else if c = 'U' then 'u'
  else if c = 'V' then 'v' else if c = 'W' then 'w' else if c = 'X' then 'x'
  else if c = 'Y' then 'y' else if c = 'Z' then 'z' else c

/-- Embedding of `str.lower()`. -/
def lowerChars (s : Chars) : Chars :=
  s.map lowerChar

/-- Decidable Python `startswith` on character lists. -/
def startsWithChars : Chars → Chars → Bool
  | [], _ => true
  | _ :: _, [] => false
  | p :: ps, x :: xs => p = x && startsWithChars ps xs

/-- Decidable Python `endswith` on character lists. -/
def endsWithChars (suf s : Chars) : Bool :=
  startsWithChars suf.reverse s.reverse

/-- Result of `urllib.parse.urlsplit`. -/
structure UrlSplitParts where
  scheme : Chars
  netloc : Chars
  path : Chars
  query : Chars
  fragment : Chars
  deriving Repr, DecidableEq

/-- Embedding of `urllib.parse.urlsplit` (default arguments): left-strip of
C0-control-or-space, removal of tab/CR/LF, scheme extraction (the part
before the first colon when it is a well-formed scheme, lowercased),
netloc extraction after a leading `//` up to the first `/?#`, then the
fragment after the first `#` and the query after the first `?`.  The
`ValueError` branches for bracketed hosts are outside the model. -/
def pyUrlsplit (input : Chars) : UrlSplitParts :=
  let url0 := removeUnsafeUrlBytes (input.dropWhile c0OrSpace)
  let sr : Chars × Chars :=
    match splitFirst ':' url0 with
    | some (before, after) =>
      match before with
      | [] => ([], url0)
      | b0 :: _ =>
        if b0.isAlpha && before.all schemeChar then (lowerChars before, after)
        else ([], url0)
    | none => ([], url0)
  let scheme := sr.1
  let rest0 := sr.2
  let nr : Chars × Chars :=
    if rest0.take 2 = ['/', '/'] then
      ((rest0.drop 2).takeWhile (fun c => ! netlocDelim c),
        (rest0.drop 2).dropWhile (fun c => ! netlocDelim c))
    else ([], rest0)
  let netloc := nr.1
  let rest1 := nr.2
  let fr : Chars × Chars :=
    match splitFirst '#' rest1 with
    | some (a, b) => (a, b)
    | none => (rest1, [])
  let rest2 := fr.1
  let fragment := fr.2
  let pq : Chars × Chars :=
    match splitFirst '?' rest2 with
    | some (a, b) => (a, b)
    | none => (rest2, [])
  ⟨scheme, netloc, pq.1, pq.2, fragment⟩

/-- Embedding of `urllib.parse._splitparams`: when the path contains a
slash, the params are what follows the first semicolon of the last segment;
otherwise what follows the first semicolon.  The caller (`urlparse`) only
invokes this when a semicolon is present. -/
def pySplitparams (url : Chars) : Chars × Chars :=
  match splitLast '/' url with
  | some (a, b) =>
    match splitFirst ';' b with
    | some (b1, b2) => (a ++ '/' :: b1, b2)
    | none => (url, [])
  | none =>
    match splitFirst ';' url with
    | some (u1, u2) => (u1, u2)
    | none => (url, [])

/-- Result of `urllib.parse.urlparse`. -/
structure UrlParseParts where
  scheme : Chars
  netloc : Chars
  path : Chars
  params : Chars
  query : Chars
  fragment : Chars
  deriving Repr, DecidableEq

/-- The `uses_params` scheme list of `urllib.parse`. -/
def usesParams : List Chars :=
  [strChars "", strChars "ftp", strChars "hdl", strChars "prospero", strChars "http",
    strChars "imap", strChars "https", strChars "shttp", strChars "rtsp", strChars "rtsps",
    strChars "rtspu", strChars "sip", strChars "sips", strChars "mms", strChars "sftp",
    strChars "tel"]

/-- The `uses_netloc` scheme list of `urllib.parse`. -/
def usesNetloc : List Chars :=
  [strChars "", strChars "ftp", strChars "http", strChars "gopher", strChars "nntp",
    strChars "telnet", strChars "imap", strChars "wais", strChars "file", strChars "mms",
    strChars "https", strChars "shttp", strChars "snews", strChars "prospero",
    strChars "rtsp", strChars "rtsps", strChars "rtspu", strChars "rsync", strChars "svn",
    strChars "svn+ssh", strChars "sftp", strChars "nfs", strChars "git",
    strChars "git+ssh", strChars "ws", strChars "wss"]

/-- Embedding of `urllib.parse.urlparse`: `urlsplit` plus the params split
(applied only for a scheme in `uses_params` when the path contains a
semicolon). -/
def pyUrlparse (input : Chars) : UrlParseParts :=
  let s := pyUrlsplit input
  let pp : Chars × Chars :=
    if s.scheme ∈ usesParams ∧ ';' ∈ s.path then pySplitparams s.path else (s.path, [])
  ⟨s.scheme, s.netloc, pp.1, pp.2, s.query, s.fragment⟩

/-- Embedding of `urllib.parse.urlunsplit`: the `//` and the netloc are
emitted when the netloc is non-empty, or when the scheme is in
`uses_netloc` and the path does not already begin with `//`. -/
def pyUrlunsplit (scheme netloc url query fragment : Chars) : Chars :=
  let u1 :=
    if netloc ≠ [] ∨ (scheme ≠ [] ∧ scheme ∈ usesNetloc ∧ url.take 2 ≠ ['/', '/']) then
      let u := if url ≠ [] ∧ url.take 1 ≠ ['/'] then '/' :: url else url
      '/' :: '/' :: (netloc ++ u)
    else url
  let u2 := if scheme ≠ [] then scheme ++ ':' :: u1 else u1
  let u3 := if query ≠ [] then u2 ++ '?' :: query else u2
  if fragment ≠ [] then u3 ++ '#' :: fragment else u3

/-- Embedding of `urllib.parse.urlunparse`. -/
def pyUrlunparse (scheme netloc path params query fragment : Chars) : Chars :=
  let u := if params ≠ [] then path ++ ';' :: params else path
  pyUrlunsplit scheme netloc u query fragment

/-- The literal `http://`. -/
def httpSlashes : Chars := strChars "http://"

/-- The literal `https://`. -/
def httpsSlashes : Chars := strChars "https://"

/-- Embedding of `url.startswith(('http://', 'https://'))`. -/
def hasHttpScheme (s : Chars) : Bool :=
  startsWithChars httpSlashes s || startsWithChars httpsSlashes s

/-- The first two steps of `URLParser.normalize_url` on a non-empty input:
strip surrounding whitespace and force an `https://` scheme when no
`http://` or `https://` scheme is present. -/
def preprocessUrl (u : Chars) : Chars :=
  let u1 := pyStrip u
  if hasHttpScheme u1 then u1 else httpsSlashes ++ u1

/-- The parsed form used by `normalize_url`: `urlparse` of the
preprocessed input. -/
def normalizeParts (u : Chars) : UrlParseParts :=
  pyUrlparse (preprocessUrl u)

/-- Default-port stripping of `normalize_url`: drop a trailing `:80` for
scheme `http`, else a trailing `:443` for scheme `https`. -/
def stripDefaultPort (scheme n1 : Chars) : Chars :=
  if endsWithChars (strChars ":80") n1 ∧ scheme = strChars "http" then
    n1.take (n1.length - 3)
  else if endsWithChars (strChars ":443") n1 ∧ scheme = strChars "https" then
    n1.take (n1.length - 4)
  else n1

/-- The netloc produced by `normalize_url`: lowercased, with a default
port stripped. -/
def normalizedNetloc (u : Chars) : Chars :=
  stripDefaultPort (normalizeParts u).scheme (lowerChars (normalizeParts u).netloc)

/-- Embedding of `URLParser.normalize_url`: empty input maps to the empty
string; otherwise the input is stripped, given a scheme when missing,
parsed, the host is lowercased and cleared of a default port, an empty
path becomes `/`, and the URL is rebuilt without its fragment. -/
def normalizeUrl (u : Chars) : Chars :=
  if u = [] then []
  else
    let P := normalizeParts u
    let path := if P.path = [] then strChars "/" else P.path
    pyUrlunparse P.scheme (normalizedNetloc u) path P.params P.query []

/-! Theorems.  Shared helper lemmas come first. -/

/-- Folding enqueues grows the queue by exactly the number of operations. -/
theorem addSyncOperation_foldl_length (ops : List SyncOperation) :
    ∀ q : List SyncOperation, (ops.foldl addSyncOperation q).length = q.length + ops.length := by
  induction ops with
  | nil => intro q; simp
  | cons op ops ih =>
    intro q
    rw [List.foldl_cons, ih (addSyncOperation q op)]
    simp only [addSyncOperation, List.length_append, List.length_cons, List.length_nil]
    omega

/-- A concrete replication-log element. -/
def sampleSyncOperation : SyncOperation :=
  { operationId := 0, operationType := "INSERT", tableName := "images", data := [],
    sourceNode := "node1", targetNodes := ["node2"], status := "pending" }

/-- C3 counterexample: enqueueing 1001 operations through
`add_sync_operation` leaves 1001 operations in the queue, exceeding the
default `max_queue_size` of 1000 — no overflow dropping happens. -/
theorem sync_queue_bound_counterexample :
    ¬ ((List.replicate 1001 sampleSyncOperation).foldl addSyncOperation []).length ≤ 1000 := by
  rw [addSyncOperation_foldl_length]
  simp only [List.length_nil, List.length_replicate]
  omega

/-- C3 (amended): `add_sync_operation` appends unconditionally under the
lock; the queue grows by one per enqueue and no bound is enforced — the
configured `max_queue_size` is read but never used. -/
theorem add_sync_operation_growth (q : List SyncOperation) (ops : List SyncOperation) :
    (ops.foldl addSyncOperation q).length = q.length + ops.length :=
  addSyncOperation_foldl_length ops q

/-- A payload failing every validation rule. -/
def invalidPayload : ImagePayload :=
  { byteSize := 50, decodable := false, width := 0, height := 0 }

/-- C8 counterexample: the first filesystem event of a download attempt
writes the (still unvalidated, here invalid) payload directly to the final
path, so an invalid file is present at the final path before validation —
there is no temporary path. -/
theorem download_temp_path_counterexample :
    validateImage invalidPayload = false ∧
    (downloadAttemptEvents "img.jpg" invalidPayload).take 1 =
      [FsEvent.writeFile "img.jpg" invalidPayload] ∧
    fileAt (applyFsEvents [] ((downloadAttemptEvents "img.jpg" invalidPayload).take 1)) "img.jpg" =
      some invalidPayload := by
  refine ⟨rfl, rfl, rfl⟩

/-- C8 (amended): downloaded bytes are written directly to the final path
and validated in place — non-empty, at least 100 bytes, decodable, both
dimensions at least 10; a payload failing validation is removed from the
final path and the attempt counts as a failure, so an invalid file never
remains at the final path once the attempt completes (though it transiently
exists there during validation). -/
theorem download_validation_behavior (fp : String) (payload : ImagePayload) :
    fileAt (applyFsEvents [] (downloadAttemptEvents fp payload)) fp =
      (if validateImage payload then some payload else none) ∧
    downloadAttemptSucceeds payload = validateImage payload ∧
    (validateImage payload = true ↔
      (100 ≤ payload.byteSize ∧ payload.decodable = true ∧
        10 ≤ payload.width ∧ 10 ≤ payload.height)) := by
  refine ⟨?_, rfl, ?_⟩
  · by_cases h : validateImage payload = true
    · simp [downloadAttemptEvents, applyFsEvents, applyFsEvent, fileAt, h, List.find?]
    · simp only [Bool.not_eq_true] at h
      simp [downloadAttemptEvents, applyFsEvents, applyFsEvent, fileAt, h, List.find?]
  · obtain ⟨b, d, w, ht⟩ := payload
    simp only [validateImage]
    constructor
    · intro h
      by_cases h0 : b = 0 <;> by_cases h1 : b < 100 <;> by_cases h2 : d = true <;>
        by_cases h3 : w < 10 ∨ ht < 10 <;>
        simp [h0, h1, h2, h3] at h ⊢ <;> omega
    · rintro ⟨hb, hd, hw, hh⟩
      have h0 : ¬ (b = 0) := by omega
      have h1 : ¬ (b < 100) := by omega
      have h3 : ¬ (w < 10 ∨ ht < 10) := by omega
      simp [h0, h1, hd, h3]

/-- A node currently in `WARNING` with two recorded failures. -/
def warningNode : DatabaseNode :=
  { name := 1, role := .secondaryRole, priority := 1, healthStatus := .warning,
    failureCount := 2, failureThreshold := 3, lastCheck := none }

/-- C7 counterexample: a successful probe on a `WARNING` node leaves it
`WARNING` — health is restored to `HEALTHY` only from `OFFLINE`, not
regardless of the previous status. -/
theorem node_health_success_counterexample :
    (checkNodeHealth warningNode true 5).healthStatus = .warning ∧
    (checkNodeHealth warningNode true 5).healthStatus ≠ .healthy := by
  exact ⟨rfl, by decide⟩

/-- C7 (amended): a successful probe resets the failure counter to zero,
updates `last_check`, and sets health to `HEALTHY` exactly when the node was
`OFFLINE` (otherwise the previous status is kept); a failed probe increments
the counter and updates `last_check`, and when the counter reaches the
node's `failure_threshold` the status becomes `OFFLINE`. -/
theorem check_node_health_behavior (node : DatabaseNode) (now : Nat) :
    ((checkNodeHealth node true now).failureCount = 0 ∧
      (checkNodeHealth node true now).lastCheck = some now ∧
      (checkNodeHealth node true now).healthStatus =
        (if node.healthStatus = .offline then .healthy else node.healthStatus)) ∧
    ((checkNodeHealth node false now).failureCount = node.failureCount + 1 ∧
      (checkNodeHealth node false now).lastCheck = some now) ∧
    (node.failureThreshold ≤ node.failureCount + 1 →
      (checkNodeHealth node false now).healthStatus = .offline) := by
  refine ⟨⟨?_, ?_, ?_⟩, ⟨?_, ?_⟩, ?_⟩
  · by_cases h : node.healthStatus = .offline <;> simp [checkNodeHealth, h]
  · by_cases h : node.healthStatus = .offline <;> simp [checkNodeHealth, h]
  · by_cases h : node.healthStatus = .offline <;> simp [checkNodeHealth, h]
  · by_cases h1 : node.failureThreshold ≤ node.failureCount + 1 <;>
      by_cases h2 : node.healthStatus = .offline <;>
      by_cases h3 : 1 < node.failureCount + 1 <;>
      simp [checkNodeHealth, h1, h2, h3]
  · by_cases h1 : node.failureThreshold ≤ node.failureCount + 1 <;>
      by_cases h2 : node.healthStatus = .offline <;>
      by_cases h3 : 1 < node.failureCount + 1 <;>
      simp [checkNodeHealth, h1, h2, h3]
  · intro h1
    by_cases h2 : node.healthStatus = .offline <;> simp [checkNodeHealth, h1, h2]

/-- C7 witness: at the concrete `WARNING` node with two failures and
threshold three, a third failed probe marks the node `OFFLINE`. -/
theorem check_node_health_behavior_witness :
    3 ≤ 2 + 1 ∧ (checkNodeHealth warningNode false 7).healthStatus = .offline :=
  ⟨by decide, (check_node_health_behavior warningNode 7).2.2 (by decide)⟩

/-- Folding a run of failed probes adds the run length to the counter and
triggers exactly when the threshold is reached within the run. -/
theorem runFailedProbes (N : Nat) :
    ∀ (k c : Nat) (b : Bool),
      (List.replicate k false).foldl (checkPrimaryStep N) (c, b) =
        (c + k, b || decide (1 ≤ k ∧ N ≤ c + k)) := by
  intro k
  induction k with
  | zero => intro c b; simp
  | succ k ih =>
    intro c b
    have hstep : checkPrimaryStep N (c, b) false = (c + 1, b || decide (N ≤ c + 1)) := by
      simp [checkPrimaryStep]
    rw [List.replicate_succ, List.foldl_cons, hstep, ih]
    refine Prod.ext (by omega) ?_
    by_cases h1 : N ≤ c + 1 <;> by_cases h2 : 1 ≤ k ∧ N ≤ c + 1 + k <;>
      by_cases h3 : 1 ≤ k + 1 ∧ N ≤ c + (k + 1) <;>
      simp [h1, h2, h3] <;> omega

/-- C6: with `detection_threshold = N` (at least one), `N` consecutive
failed probes of the primary trigger failover; any shorter run of failures
leaves the counter below `N` with no failover; and `N - 1` failures
followed by a success reset the counter to zero without triggering. -/
theorem detection_threshold_behavior (N : Nat) (h : 1 ≤ N) :
    (runPrimaryProbes N (List.replicate N false)).2 = true ∧
    (∀ k, k < N → runPrimaryProbes N (List.replicate k false) = (k, false)) ∧
    runPrimaryProbes N (List.replicate (N - 1) false ++ [true]) = (0, false) := by
  refine ⟨?_, ?_, ?_⟩
  · rw [runPrimaryProbes, runFailedProbes]
    have hd : decide (1 ≤ N ∧ N ≤ 0 + N) = true := decide_eq_true (by omega)
    rw [hd]
    simp
  · intro k hk
    rw [runPrimaryProbes, runFailedProbes]
    have hd : decide (1 ≤ k ∧ N ≤ 0 + k) = false := decide_eq_false (by omega)
    rw [hd]
    simp
  · rw [runPrimaryProbes, List.foldl_append, runFailedProbes]
    have hd : decide (1 ≤ N - 1 ∧ N ≤ 0 + (N - 1)) = false := decide_eq_false (by omega)
    rw [hd]
    simp [checkPrimaryStep]

/-- C6 witness: with the default threshold 3, three failed probes trigger
and two failures followed by a success reset without triggering. -/
theorem detection_threshold_behavior_witness :
    (1 ≤ 3 ∧ (runPrimaryProbes 3 (List.replicate 3 false)).2 = true) ∧
    runPrimaryProbes 3 (List.replicate 2 false ++ [true]) = (0, false) :=
  ⟨⟨by decide, (detection_threshold_behavior 3 (by decide)).1⟩,
    (detection_threshold_behavior 3 (by decide)).2.2⟩

/-- `firstMinBy` returns `none` exactly on the empty list. -/
theorem firstMinBy_none {α : Type} (f : α → Nat) :
    ∀ l : List α, firstMinBy f l = none ↔ l = [] := by
  intro l
  cases l with
  | nil => simp [firstMinBy]
  | cons a as =>
    simp only [firstMinBy]
    constructor
    · intro h
      split at h
      · exact absurd h (by simp)
      · split at h <;> exact absurd h (by simp)
    · intro h
      exact absurd h (by simp)

/-- The element selected by `firstMinBy` belongs to the list. -/
theorem firstMinBy_mem {α : Type} (f : α → Nat) :
    ∀ (l : List α) (x : α), firstMinBy f l = some x → x ∈ l := by
  intro l
  induction l with
  | nil => intro x h; simp [firstMinBy] at h
  | cons a as ih =>
    intro x h
    simp only [firstMinBy] at h
    split at h
    · simp at h
      simp [h]
    · rename_i m hm
      split at h
      · simp at h
        subst h
        exact List.mem_cons_of_mem a (ih m hm)
      · simp at h
        simp [h]

/-- The element selected by `firstMinBy` has minimal `f`-value. -/
theorem firstMinBy_min {α : Type} (f : α → Nat) :
    ∀ (l : List α) (x : α), firstMinBy f l = some x → ∀ y ∈ l, f x ≤ f y := by
  intro l
  induction l with
  | nil => intro x h; simp [firstMinBy] at h
  | cons a as ih =>
    intro x h y hy
    simp only [firstMinBy] at h
    split at h
    · rename_i hm
      simp at h
      subst h
      have has : as = [] := (firstMinBy_none f as).mp hm
      subst has
      simp at hy
      simp [hy]
    · rename_i m hm
      split at h
      · rename_i hc
        simp at h
        subst h
        rcases List.mem_cons.mp hy with h1 | h2
        · subst h1; omega
        · exact ih m hm y h2
      · rename_i hc
        simp at h
        subst h
        rcases List.mem_cons.mp hy with h1 | h2
        · subst h1; omega
        · have := ih m hm y h2
          omega

/-- C5: an automatic failover picks, among the nodes other than the failed
primary that are currently healthy and have role secondary or standby, a
candidate of smallest priority; with no candidate the node roles are left
unchanged and no target is returned, and (in the failover manager) a
failover event with terminal status FAILED is recorded. -/
theorem failover_target_selection (nodes : List DatabaseNode) (failed : Nat)
    (history : List FailoverEvent) (dbs : List FoDatabaseConfig) (failedDb reason : String) :
    (∀ n : DatabaseNode, n ∈ failoverCandidates nodes failed ↔
        (n ∈ nodes ∧ n.name ≠ failed ∧ isNodeHealthy n = true ∧
          (n.role = .secondaryRole ∨ n.role = .standbyRole))) ∧
    (∀ tgt, (attemptFailover nodes failed).2 = some tgt →
        ∃ n, n ∈ failoverCandidates nodes failed ∧ n.name = tgt ∧
          ∀ m ∈ failoverCandidates nodes failed, n.priority ≤ m.priority) ∧
    (failoverCandidates nodes failed = [] → attemptFailover nodes failed = (nodes, none)) ∧
    ((triggerAutomaticFailover history dbs failedDb reason).2 = none →
        ∃ e : FailoverEvent, e.status = .statusFailed ∧
          (triggerAutomaticFailover history dbs failedDb reason).1 =
            recordFailoverEvent history e) := by
  refine ⟨?_, ?_, ?_, ?_⟩
  · intro n
    simp only [failoverCandidates, List.mem_filter, Bool.and_eq_true, Bool.or_eq_true,
      decide_eq_true_eq]
    tauto
  · intro tgt h
    simp only [attemptFailover] at h
    cases hm : firstMinBy DatabaseNode.priority (failoverCandidates nodes failed) with
    | none => rw [hm] at h; simp at h
    | some n =>
      rw [hm] at h
      simp at h
      exact ⟨n, firstMinBy_mem _ _ n hm, h, firstMinBy_min _ _ n hm⟩
  · intro h
    simp only [attemptFailover, h, firstMinBy]
  · intro h
    simp only [triggerAutomaticFailover] at h ⊢
    cases hs : selectFailoverTarget dbs failedDb with
    | some t => rw [hs] at h; simp at h
    | none => exact ⟨_, rfl, rfl⟩

/-- A healthy secondary of priority 3. -/
def secondaryNodeB : DatabaseNode :=
  { name := 2, role := .secondaryRole, priority := 3, healthStatus := .healthy,
    failureCount := 0, failureThreshold := 3, lastCheck := none }

/-- A healthy standby of priority 2. -/
def standbyNodeC : DatabaseNode :=
  { name := 3, role := .standbyRole, priority := 2, healthStatus := .healthy,
    failureCount := 0, failureThreshold := 3, lastCheck := none }

/-- An offline primary of priority 1. -/
def offlinePrimaryA : DatabaseNode :=
  { name := 1, role := .primaryRole, priority := 1, healthStatus := .offline,
    failureCount := 3, failureThreshold := 3, lastCheck := none }

/-- C5 witness: in a concrete three-node cluster with the primary failed,
the selected target is the standby of priority 2, minimal among the
candidates. -/
theorem failover_target_selection_witness :
    ∃ n, n ∈ failoverCandidates [offlinePrimaryA, secondaryNodeB, standbyNodeC] 1 ∧
      n.name = 3 ∧
      ∀ m ∈ failoverCandidates [offlinePrimaryA, secondaryNodeB, standbyNodeC] 1,
        n.priority ≤ m.priority :=
  (failover_target_selection [offlinePrimaryA, secondaryNodeB, standbyNodeC] 1
      [] [] "" "").2.1 3 (by decide)

/-- Fold-max over a cons. -/
theorem maxId_cons (r : Row) (t : List Row) : maxId (r :: t) = max r.id (maxId t) := rfl

/-- Every member's id is bounded by `maxId`. -/
theorem le_maxId_of_mem {r : Row} : ∀ {t : List Row}, r ∈ t → r.id ≤ maxId t := by
  intro t
  induction t with
  | nil => intro h; simp at h
  | cons x xs ih =>
    intro h
    rw [maxId_cons]
    rcases List.mem_cons.mp h with h1 | h2
    · subst h1; omega
    · have := ih h2; omega

/-- An upper bound on all member ids bounds `maxId`. -/
theorem maxId_le {m : Nat} : ∀ {t : List Row}, (∀ x ∈ t, x.id ≤ m) → maxId t ≤ m := by
  intro t
  induction t with
  | nil => intro _; simp [maxId]
  | cons x xs ih =>
    intro h
    rw [maxId_cons]
    have h1 := h x (List.mem_cons_self x xs)
    have h2 := ih (fun y hy => h y (List.mem_cons_of_mem x hy))
    omega

/-- Members of an upsert result come from the table or are the new row. -/
theorem mem_upsertRow {x r : Row} {t : List Row} (h : x ∈ upsertRow t r) : x ∈ t ∨ x = r := by
  simp only [upsertRow] at h
  split at h
  · rcases List.mem_map.mp h with ⟨y, hy, hxy⟩
    by_cases hid : y.id = r.id
    · rw [if_pos hid] at hxy
      right
      exact hxy.symm
    · rw [if_neg hid] at hxy
      left
      exact hxy ▸ hy
  · rcases List.mem_append.mp h with h1 | h2
    · left; exact h1
    · right; simpa using h2

/-- An upsert keeps every id already present in the table. -/
theorem upsertRow_keeps_id {t : List Row} {i : Nat} (r : Row)
    (h : ∃ x ∈ t, x.id = i) : ∃ x ∈ upsertRow t r, x.id = i := by
  rcases h with ⟨x, hx, hxi⟩
  simp only [upsertRow]
  split
  · by_cases hid : x.id = r.id
    · exact ⟨r, List.mem_map.mpr ⟨x, hx, by rw [if_pos hid]⟩, by omega⟩
    · exact ⟨x, List.mem_map.mpr ⟨x, hx, by rw [if_neg hid]⟩, hxi⟩
  · exact ⟨x, List.mem_append.mpr (Or.inl hx), hxi⟩

/-- An upsert establishes the id of the inserted row. -/
theorem upsertRow_has_id (t : List Row) (r : Row) : ∃ x ∈ upsertRow t r, x.id = r.id := by
  simp only [upsertRow]
  split
  · rename_i hany
    rcases List.any_eq_true.mp hany with ⟨y, hy, hyid⟩
    simp only [decide_eq_true_eq] at hyid
    exact ⟨r, List.mem_map.mpr ⟨y, hy, by rw [if_pos hyid]⟩, rfl⟩
  · exact ⟨r, List.mem_append.mpr (Or.inr (by simp)), rfl⟩

/-- A bulk upsert keeps every id already present in the table. -/
theorem bulkUpsert_keeps_id {i : Nat} :
    ∀ (rs : List Row) (t : List Row), (∃ x ∈ t, x.id = i) →
      ∃ y ∈ bulkUpsert t rs, y.id = i := by
  intro rs
  induction rs with
  | nil => intro t h; simpa [bulkUpsert] using h
  | cons r rs ih =>
    intro t h
    simp only [bulkUpsert, List.foldl_cons] at ih ⊢
    exact ih (upsertRow t r) (upsertRow_keeps_id r h)

/-- A bulk upsert establishes the id of every transferred row. -/
theorem bulkUpsert_has_id {x : Row} :
    ∀ (rs : List Row) (t : List Row), x ∈ rs → ∃ y ∈ bulkUpsert t rs, y.id = x.id := by
  intro rs
  induction rs with
  | nil => intro t h; simp at h
  | cons r rs ih =>
    intro t h
    rcases List.mem_cons.mp h with h1 | h2
    · subst h1
      simp only [bulkUpsert, List.foldl_cons]
      exact bulkUpsert_keeps_id rs (upsertRow t x) (upsertRow_has_id t x)
    · simp only [bulkUpsert, List.foldl_cons]
      exact ih (upsertRow t r) h2

/-- Members of a bulk-upsert result come from the table or the batch. -/
theorem mem_bulkUpsert {x : Row} :
    ∀ (rs : List Row) (t : List Row), x ∈ bulkUpsert t rs → x ∈ t ∨ x ∈ rs := by
  intro rs
  induction rs with
  | nil => intro t h; left; simpa [bulkUpsert] using h
  | cons r rs ih =>
    intro t h
    simp only [bulkUpsert, List.foldl_cons] at h
    rcases ih (upsertRow t r) h with h1 | h2
    · rcases mem_upsertRow h1 with ha | hb
      · left; exact ha
      · right; simp [hb]
    · right; exact List.mem_cons_of_mem r h2

/-- C2: after a bulk copy with at least one synced record (with the usual
positive ids), the receiving table's sequence is exactly `max(id) + 1`;
the cross-node INSERT apply path preserves the invariant
`sequence ≥ max(id) + 1`, and bumps the sequence to `inserted_id + 1`
whenever the inserted id is at least the current sequence value. -/
theorem sequence_after_sync_invariant (t : NodeTable) (records : List Row) (r : Row) :
    (records ≠ [] → (∀ x ∈ records, 1 ≤ x.id) →
        (applyBulkSync t records).seq = maxId (applyBulkSync t records).rows + 1) ∧
    (maxId t.rows < t.seq →
        maxId (executeInsertOperation t r).rows < (executeInsertOperation t r).seq) ∧
    (t.seq ≤ r.id → (executeInsertOperation t r).seq = r.id + 1) := by
  refine ⟨?_, ?_, ?_⟩
  · intro hne hpos
    obtain ⟨x, hx⟩ := List.exists_mem_of_ne_nil records hne
    have hlen : 0 < records.length := List.length_pos.mpr hne
    obtain ⟨y, hy, hyid⟩ := bulkUpsert_has_id records t.rows hx
    have hymax : y.id ≤ maxId (bulkUpsert t.rows records) := le_maxId_of_mem hy
    have hxpos : 1 ≤ x.id := hpos x hx
    have hmaxpos : 0 < maxId (bulkUpsert t.rows records) := by omega
    simp only [applyBulkSync, if_pos hlen, updateSequenceAfterSync, if_pos hmaxpos]
  · intro hinv
    have hbound : maxId (upsertRow t.rows r) ≤ max (maxId t.rows) r.id := by
      apply maxId_le
      intro x hx
      rcases mem_upsertRow hx with h1 | h2
      · exact le_trans (le_maxId_of_mem h1) (le_max_left _ _)
      · subst h2
        exact le_max_right _ _
    by_cases hc : t.seq ≤ r.id
    · have he : executeInsertOperation t r =
          { rows := upsertRow t.rows r, seq := r.id + 1 } := by
        simp [executeInsertOperation, syncSequenceForInsert, hc]
      rw [he]
      have hm : max (maxId t.rows) r.id ≤ r.id := max_le (by omega) le_rfl
      have h2 := le_trans hbound hm
      show maxId (upsertRow t.rows r) < r.id + 1
      omega
    · have he : executeInsertOperation t r =
          { rows := upsertRow t.rows r, seq := t.seq } := by
        simp [executeInsertOperation, syncSequenceForInsert, hc]
      rw [he]
      have hm : max (maxId t.rows) r.id < t.seq := max_lt (by omega) (by omega)
      have h2 := lt_of_le_of_lt hbound hm
      show maxId (upsertRow t.rows r) < t.seq
      omega
  · intro hc
    simp only [executeInsertOperation, syncSequenceForInsert, if_pos hc]

/-- C2 witness: on a table holding id 1 with sequence 2, bulk-syncing the
row with id 5 sets the sequence to `max(id) + 1`, and applying a cross-node
INSERT of id 7 bumps the sequence to 8. -/
theorem sequence_after_sync_invariant_witness :
    (applyBulkSync ⟨[⟨1, 0, 0⟩], 2⟩ [⟨5, 0, 0⟩]).seq =
      maxId (applyBulkSync ⟨[⟨1, 0, 0⟩], 2⟩ [⟨5, 0, 0⟩]).rows + 1 ∧
    (executeInsertOperation ⟨[⟨1, 0, 0⟩], 2⟩ ⟨7, 0, 0⟩).seq = 7 + 1 :=
  ⟨(sequence_after_sync_invariant ⟨[⟨1, 0, 0⟩], 2⟩ [⟨5, 0, 0⟩] ⟨7, 0, 0⟩).1
      (by decide) (by decide),
    (sequence_after_sync_invariant ⟨[⟨1, 0, 0⟩], 2⟩ [⟨5, 0, 0⟩] ⟨7, 0, 0⟩).2.2 (by decide)⟩

/-- The bound parameter of a serialized payload value is never `None`. -/
theorem bindValue_ne_null (v : SerializedVal) : bindValue v ≠ .pynone := by
  cases v <;> simp [bindValue]

/-- C10: the serialized payload contains exactly the columns whose value is
not `None` — datetimes as ISO-8601 text, dict/list values as JSON text, the
rest verbatim — so a NULL column never appears in a replicated payload, and
a sync-applied UPDATE never sets a receiving row's column to NULL. -/
theorem serialize_model_excludes_null (m : ModelInstance) (row : List (String × PyVal)) :
    (∀ p : String × SerializedVal, p ∈ serializeModel m →
        ∃ v : PyVal, (p.1, v) ∈ m.columns ∧ v ≠ .pynone ∧ serializeValue v = some p.2) ∧
    (∀ q : String × PyVal, q ∈ m.columns → q.2 ≠ .pynone →
        ∃ sv : SerializedVal, serializeValue q.2 = some sv ∧ (q.1, sv) ∈ serializeModel m) ∧
    ((∀ ts : Nat, serializeValue (.pydatetime ts) = some (.isoText ts)) ∧
      (∀ j : Nat, serializeValue (.pyjson j) = some (.jsonText j)) ∧
      (∀ n : Int, serializeValue (.pyint n) = some (.rawInt n)) ∧
      (∀ s : String, serializeValue (.pystr s) = some (.rawStr s))) ∧
    (∀ q ∈ applyUpdateToRow row (serializeModel m), q.2 ≠ .pynone ∨ q ∈ row) := by
  refine ⟨?_, ?_, ⟨fun _ => rfl, fun _ => rfl, fun _ => rfl, fun _ => rfl⟩, ?_⟩
  · intro p hp
    rcases List.mem_filterMap.mp hp with ⟨c, hc, hfc⟩
    rcases Option.map_eq_some'.mp hfc with ⟨sv, hsv, hpair⟩
    refine ⟨c.2, ?_, ?_, ?_⟩
    · have : (p.1, c.2) = c := by
        rw [← hpair]
      rw [this]
      exact hc
    · intro hnull
      rw [hnull] at hsv
      simp [serializeValue] at hsv
    · rw [hsv, ← hpair]
  · intro q hq hnull
    cases hsv : serializeValue q.2 with
    | none =>
      exfalso
      cases hv : q.2 <;> rw [hv] at hsv <;> simp [serializeValue] at hsv
      exact hnull hv
    | some sv =>
      refine ⟨sv, rfl, ?_⟩
      exact List.mem_filterMap.mpr ⟨q, hq, by rw [hsv]; rfl⟩
  · intro q hq
    rcases List.mem_map.mp hq with ⟨c, hc, hcq⟩
    revert hcq
    cases hl : (updateSetClauses (serializeModel m)).lookup c.1 with
    | some v =>
      intro hcq
      left
      rw [← hcq]
      exact bindValue_ne_null v
    | none =>
      intro hcq
      right
      rw [← hcq]
      exact hc

/-- A model instance with a NULL `mime_type` column. -/
def sampleModel : ModelInstance :=
  { tableName := "images",
    columns := [("id", .pyint 1), ("url", .pystr "http://e.com/a.jpg"), ("mime_type", .pynone),
      ("created_at", .pydatetime 100), ("tags", .pyjson 5)] }

/-- C10 witness: in the concrete model, the non-NULL `created_at` column is
serialized (to ISO text) into the payload. -/
theorem serialize_model_excludes_null_witness :
    ∃ sv : SerializedVal, serializeValue (PyVal.pydatetime 100) = some sv ∧
      ("created_at", sv) ∈ serializeModel sampleModel :=
  (serialize_model_excludes_null sampleModel []).2.1 ("created_at", .pydatetime 100)
    (by decide) (by decide)

/-- The sync operation that `commit` appends for one pending operation. -/
def pendingToOp (env : HAEnv) (nowMs : Nat) (op : PendingOp) : SyncOperation :=
  match op.kind with
  | .insertKind => mkSyncOperation env nowMs "INSERT" op.table (serializeModel op.inst)
  | .updateKind => mkSyncOperation env nowMs "UPDATE" op.table (serializeModel op.inst)
  | .deleteKind => mkSyncOperation env nowMs "DELETE" op.table (syncDeleteData op.inst)

/-- Processing one pending operation appends exactly its sync operation. -/
theorem processPendingOp_eq (env : HAEnv) (nowMs : Nat) (q : List SyncOperation)
    (op : PendingOp) : processPendingOp env nowMs q op = q ++ [pendingToOp env nowMs op] := by
  cases hk : op.kind <;> simp [processPendingOp, pendingToOp, addSyncOperation, hk]

/-- Folding the pending list appends its serialized operations in order. -/
theorem processPending_foldl (env : HAEnv) (nowMs : Nat) :
    ∀ (ops : List PendingOp) (q : List SyncOperation),
      ops.foldl (processPendingOp env nowMs) q = q ++ ops.map (pendingToOp env nowMs) := by
  intro ops
  induction ops with
  | nil => intro q; simp
  | cons op ops ih =>
    intro q
    rw [List.foldl_cons, processPendingOp_eq, ih]
    simp

/-- C4 (amended): if the local commit raises, `commit` rolls back and
re-raises and the pending list is retained, not discarded — a later
successful commit appends those same operations to the replication log; if
the local commit succeeds, each pending operation is serialized and
appended to the replication log in order and the pending list is cleared. -/
theorem auto_sync_commit_behavior (env : HAEnv) (nowMs : Nat) (st : AutoSyncSessionState) :
    commitAutoSync env nowMs st false = (.raised, st) ∧
    commitAutoSync env nowMs st true =
      (.ok, { pending := [],
              syncQueue := st.syncQueue ++ st.pending.map (pendingToOp env nowMs) }) := by
  constructor
  · simp [commitAutoSync]
  · simp [commitAutoSync, processPending_foldl]

/-- The HA environment of the counterexample. -/
def sampleEnv : HAEnv :=
  { localNodeName := "node1", secondaryNodes := ["node2"] }

/-- A pending INSERT recorded by the auto-sync session. -/
def samplePending : PendingOp :=
  { kind := .insertKind, table := "images", inst := sampleModel }

/-- C4 counterexample: a failed commit with one pending operation keeps
that operation in the pending list, and the next successful commit appends
the operation from the failed commit to the replication log — it is not
discarded. -/
theorem auto_sync_commit_counterexample :
    (commitAutoSync sampleEnv 0 ⟨[samplePending], []⟩ false).1 = .raised ∧
    (commitAutoSync sampleEnv 0 ⟨[samplePending], []⟩ false).2.pending = [samplePending] ∧
    (commitAutoSync sampleEnv 0
        (commitAutoSync sampleEnv 0 ⟨[samplePending], []⟩ false).2 true).2.syncQueue =
      [pendingToOp sampleEnv 0 samplePending] := by
  refine ⟨rfl, rfl, rfl⟩

/-- Membership in an insertion-sorted list. -/
theorem mem_insertById {x r : Row} : ∀ {l : List Row}, x ∈ insertById r l ↔ x = r ∨ x ∈ l := by
  intro l
  induction l with
  | nil => simp [insertById]
  | cons y ys ih =>
    simp only [insertById]
    split
    · simp
    · simp only [List.mem_cons, ih]
      tauto

/-- Sorting preserves membership. -/
theorem mem_sortById {x : Row} : ∀ {t : List Row}, x ∈ sortById t ↔ x ∈ t := by
  intro t
  induction t with
  | nil => simp [sortById]
  | cons y ys ih =>
    simp only [sortById, List.foldr_cons] at ih ⊢
    rw [mem_insertById, ih]
    simp

/-- The record selection returns at most `limit` rows. -/
theorem recordsAboveId_length_le (t : List Row) (minId limit : Nat) :
    (recordsAboveId t minId limit).length ≤ limit := by
  simp only [recordsAboveId]
  exact List.length_take_le _ _

/-- Every selected record is a table row with id above the bound. -/
theorem mem_recordsAboveId {r : Row} {t : List Row} {minId limit : Nat}
    (h : r ∈ recordsAboveId t minId limit) : r ∈ t ∧ minId < r.id := by
  simp only [recordsAboveId] at h
  have h1 := List.mem_of_mem_take h
  have h2 := List.mem_filter.mp h1
  refine ⟨mem_sortById.mp h2.1, ?_⟩
  have := h2.2
  simpa using this

/-- A single-record sync touches the target only at the fetched primary
row. -/
theorem mem_syncSingleRecord {x : Row} {p s : List Row} {i : Nat}
    (h : x ∈ syncSingleRecord p s i) : x ∈ s ∨ (x ∈ p ∧ x.id = i) := by
  simp only [syncSingleRecord] at h
  cases hf : getRecordById p i with
  | none =>
    rw [hf] at h
    left
    exact h
  | some r =>
    rw [hf] at h
    rcases mem_upsertRow h with h1 | h2
    · left; exact h1
    · right
      subst h2
      have hm := List.mem_of_find?_eq_some hf
      have hp := List.find?_some hf
      simp at hp
      exact ⟨hm, hp⟩

/-- Rows of the content-difference sync come from the old target or are
primary rows at one of the differing ids. -/
theorem mem_syncContentDifferences {x : Row} {p s : List Row}
    (h : x ∈ syncContentDifferences p s) :
    x ∈ s ∨ (x ∈ p ∧ x.id ∈ contentDiffIds p s) := by
  have main : ∀ (ids : List Nat) (t : List Row), x ∈ ids.foldl (fun t i => syncSingleRecord p t i) t →
      x ∈ t ∨ (x ∈ p ∧ x.id ∈ ids) := by
    intro ids
    induction ids with
    | nil => intro t h0; left; simpa using h0
    | cons i ids ih =>
      intro t h0
      rw [List.foldl_cons] at h0
      rcases ih (syncSingleRecord p t i) h0 with h1 | h2
      · rcases mem_syncSingleRecord h1 with ha | hb
        · left; exact ha
        · right
          exact ⟨hb.1, by simp [hb.2]⟩
      · right
        exact ⟨h2.1, List.mem_cons_of_mem i h2.2⟩
  exact main (contentDiffIds p s) s h

/-- C1: one due full-reconciliation pass syncs nothing unless the local
node is the current primary; when it is, the per-table direction follows
the counts: a primary surplus copies, primary to secondary, only rows with
id above the secondary's max id and at most the count deficit of them; a
secondary surplus copies in the reverse direction under the same rule; and
with equal positive counts whose newest-row `(id, updated_at)` sets differ,
the secondary changes only by content-syncing primary rows whose id is
among the differing latest ids. -/
theorem full_reconciliation_direction (st : FullSyncState) (now : Nat)
    (hdue : st.fullSyncInterval ≤ now - st.lastFullSync) :
    (st.currentPrimary ≠ st.localNode → fullSyncLoopIteration st now = st) ∧
    (st.currentPrimary = st.localNode →
      (st.secondaryTable.length < st.primaryTable.length →
        (fullSyncLoopIteration st now).primaryTable = st.primaryTable ∧
        (fullSyncLoopIteration st now).secondaryTable =
          bulkUpsert st.secondaryTable
            (recordsAboveId st.primaryTable (maxId st.secondaryTable)
              (st.primaryTable.length - st.secondaryTable.length)) ∧
        (recordsAboveId st.primaryTable (maxId st.secondaryTable)
            (st.primaryTable.length - st.secondaryTable.length)).length ≤
          st.primaryTable.length - st.secondaryTable.length ∧
        (∀ r ∈ recordsAboveId st.primaryTable (maxId st.secondaryTable)
            (st.primaryTable.length - st.secondaryTable.length),
          r ∈ st.primaryTable ∧ maxId st.secondaryTable < r.id)) ∧
      (st.primaryTable.length < st.secondaryTable.length →
        (fullSyncLoopIteration st now).secondaryTable = st.secondaryTable ∧
        (fullSyncLoopIteration st now).primaryTable =
          bulkUpsert st.primaryTable
            (recordsAboveId st.secondaryTable (maxId st.primaryTable)
              (st.secondaryTable.length - st.primaryTable.length)) ∧
        (recordsAboveId st.secondaryTable (maxId st.primaryTable)
            (st.secondaryTable.length - st.primaryTable.length)).length ≤
          st.secondaryTable.length - st.primaryTable.length ∧
        (∀ r ∈ recordsAboveId st.secondaryTable (maxId st.primaryTable)
            (st.secondaryTable.length - st.primaryTable.length),
          r ∈ st.secondaryTable ∧ maxId st.primaryTable < r.id)) ∧
      (st.primaryTable.length = st.secondaryTable.length →
        0 < st.primaryTable.length →
        (latestRows st.primaryTable 5).toFinset ≠ (latestRows st.secondaryTable 5).toFinset →
        (fullSyncLoopIteration st now).primaryTable = st.primaryTable ∧
        ∀ r ∈ (fullSyncLoopIteration st now).secondaryTable,
          r ∈ st.secondaryTable ∨
            (r ∈ st.primaryTable ∧ r.id ∈ contentDiffIds st.primaryTable st.secondaryTable))) := by
  constructor
  · intro hne
    simp [fullSyncLoopIteration, hdue, hne]
  · intro hp
    refine ⟨?_, ?_, ?_⟩
    · intro hlt
      have hinc : deepInconsistent st.primaryTable st.secondaryTable = true := by
        simp only [deepInconsistent, Bool.or_eq_true, decide_eq_true_eq]
        left; left
        omega
      have hsync : syncBidirectionalTable st.primaryTable st.secondaryTable =
          (st.primaryTable,
            bulkUpsert st.secondaryTable
              (recordsAboveId st.primaryTable (maxId st.secondaryTable)
                (st.primaryTable.length - st.secondaryTable.length))) := by
        simp [syncBidirectionalTable, hlt]
      refine ⟨?_, ?_, recordsAboveId_length_le _ _ _, fun r hr => mem_recordsAboveId hr⟩
      · simp [fullSyncLoopIteration, hdue, hp, hinc, hsync]
      · simp [fullSyncLoopIteration, hdue, hp, hinc, hsync]
    · intro hlt
      have hinc : deepInconsistent st.primaryTable st.secondaryTable = true := by
        simp only [deepInconsistent, Bool.or_eq_true, decide_eq_true_eq]
        left; left
        omega
      have hnot : ¬ st.secondaryTable.length < st.primaryTable.length := by omega
      have hsync : syncBidirectionalTable st.primaryTable st.secondaryTable =
          (bulkUpsert st.primaryTable
              (recordsAboveId st.secondaryTable (maxId st.primaryTable)
                (st.secondaryTable.length - st.primaryTable.length)),
            st.secondaryTable) := by
        simp [syncBidirectionalTable, hnot, hlt]
      refine ⟨?_, ?_, recordsAboveId_length_le _ _ _, fun r hr => mem_recordsAboveId hr⟩
      · simp [fullSyncLoopIteration, hdue, hp, hinc, hsync]
      · simp [fullSyncLoopIteration, hdue, hp, hinc, hsync]
    · intro heq hpos hlatest
      have hinc : deepInconsistent st.primaryTable st.secondaryTable = true := by
        simp only [deepInconsistent, Bool.or_eq_true, decide_eq_true_eq, Bool.and_eq_true]
        left; right
        exact ⟨hpos, hlatest⟩
      have hnot1 : ¬ st.secondaryTable.length < st.primaryTable.length := by omega
      have hnot2 : ¬ st.primaryTable.length < st.secondaryTable.length := by omega
      have hsync : syncBidirectionalTable st.primaryTable st.secondaryTable =
          (st.primaryTable, syncContentDifferences st.primaryTable st.secondaryTable) := by
        simp [syncBidirectionalTable, hnot1, hnot2, hpos]
      constructor
      · simp [fullSyncLoopIteration, hdue, hp, hinc, hsync]
      · intro r hr
        have hsec : (fullSyncLoopIteration st now).secondaryTable =
            syncContentDifferences st.primaryTable st.secondaryTable := by
          simp [fullSyncLoopIteration, hdue, hp, hinc, hsync]
        rw [hsec] at hr
        exact mem_syncContentDifferences hr

/-- Cluster state of the C1 witness: local node is primary, the interval
has elapsed, the primary table holds ids 1 and 2, the secondary id 1. -/
def sampleSyncState : FullSyncState :=
  { currentPrimary := 0, localNode := 0, lastFullSync := 0, fullSyncInterval := 0,
    primaryTable := [⟨1, 0, 0⟩, ⟨2, 0, 0⟩], secondaryTable := [⟨1, 0, 0⟩] }

/-- C1 witness: on the concrete cluster state ahead by one row, the pass
copies the surplus rows of the primary (id above 1, at most one row) onto
the secondary and leaves the primary unchanged. -/
theorem full_reconciliation_direction_witness :
    (fullSyncLoopIteration sampleSyncState 0).primaryTable = sampleSyncState.primaryTable ∧
    (fullSyncLoopIteration sampleSyncState 0).secondaryTable =
      bulkUpsert sampleSyncState.secondaryTable
        (recordsAboveId sampleSyncState.primaryTable (maxId sampleSyncState.secondaryTable) 1) ∧
    (recordsAboveId sampleSyncState.primaryTable (maxId sampleSyncState.secondaryTable) 1).length ≤ 1 ∧
    (∀ r ∈ recordsAboveId sampleSyncState.primaryTable (maxId sampleSyncState.secondaryTable) 1,
      r ∈ sampleSyncState.primaryTable ∧ maxId sampleSyncState.secondaryTable < r.id) :=
  ((full_reconciliation_direction sampleSyncState 0 (by decide)).2 (by decide)).1 (by decide)

/-- C9 counterexample: normalization is not idempotent.  On
`http://example.com:80:80` one pass strips a single `:80` suffix, producing
`http://example.com:80/`, and a second pass strips again, producing
`http://example.com/`. -/
theorem normalize_url_idempotent_counterexample :
    normalizeUrl (normalizeUrl (strChars "http://example.com:80:80")) ≠
      normalizeUrl (strChars "http://example.com:80:80") := by
  decide

/-- A list starts with itself followed by anything. -/
theorem startsWithChars_append (p r : Chars) : startsWithChars p (p ++ r) = true := by
  induction p with
  | nil => rfl
  | cons c cs ih => simp [startsWithChars, ih]

/-- Characterization of `startsWithChars`. -/
theorem startsWithChars_iff (p : Chars) :
    ∀ s : Chars, startsWithChars p s = true ↔ ∃ r, s = p ++ r := by
  induction p with
  | nil => intro s; simp [startsWithChars]
  | cons c cs ih =>
    intro s
    cases s with
    | nil => simp [startsWithChars]
    | cons x xs =>
      simp only [startsWithChars, Bool.and_eq_true, decide_eq_true_eq, ih xs]
      constructor
      · rintro ⟨hx, r, hr⟩
        exact ⟨r, by simp [hx, hr]⟩
      · rintro ⟨r, hr⟩
        simp only [List.cons_append, List.cons_eq_cons] at hr
        exact ⟨hr.1.symm, r, hr.2⟩

/-- An absent character makes `splitFirst` return `none`. -/
theorem splitFirst_eq_none {c : Char} :
    ∀ {s : Chars}, splitFirst c s = none ↔ c ∉ s := by
  intro s
  induction s with
  | nil => simp [splitFirst]
  | cons x xs ih =>
    simp only [splitFirst]
    by_cases hx : x = c
    · simp [hx]
    · rw [if_neg hx]
      cases hs : splitFirst c xs with
      | none =>
        rw [hs] at ih
        simp at ih
        simp [ih, hx]
        intro hc
        exact hx hc.symm
      | some ab =>
        rw [hs] at ih
        simp at ih
        simp [hx, ih]

/-- `splitFirst` splits at the first occurrence. -/
theorem splitFirst_append_cons {c : Char} :
    ∀ {a : Chars} (b : Chars), c ∉ a → splitFirst c (a ++ c :: b) = some (a, b) := by
  intro a
  induction a with
  | nil => intro b _; simp [splitFirst]
  | cons x xs ih =>
    intro b hc
    have hx : ¬ x = c := by
      intro hx
      exact hc (by simp [hx])
    have hxs : c ∉ xs := fun h => hc (List.mem_cons_of_mem x h)
    show splitFirst c (x :: (xs ++ c :: b)) = some (x :: xs, b)
    rw [splitFirst, if_neg hx, ih b hxs]

/-- A successful `splitFirst` decomposes the input. -/
theorem splitFirst_eq_some {c : Char} :
    ∀ {s x y : Chars}, splitFirst c s = some (x, y) → s = x ++ c :: y ∧ c ∉ x := by
  intro s
  induction s with
  | nil => intro x y h; simp [splitFirst] at h
  | cons z zs ih =>
    intro x y h
    simp only [splitFirst] at h
    by_cases hz : z = c
    · rw [if_pos hz] at h
      simp at h
      obtain ⟨hx, hy⟩ := h
      subst hx
      subst hy
      simp [hz]
    · rw [if_neg hz] at h
      cases hs : splitFirst c zs with
      | none => rw [hs] at h; simp at h
      | some ab =>
        rw [hs] at h
        obtain ⟨a, b⟩ := ab
        simp at h
        obtain ⟨hx, hy⟩ := h
        obtain ⟨hza, hzb⟩ := ih hs
        subst hy
        rw [← hx]
        constructor
        · simp [hza]
        · intro hmem
          rcases List.mem_cons.mp hmem with h1 | h2
          · exact hz h1.symm
          · exact hzb h2

/-- An absent character makes `splitLast` return `none`. -/
theorem splitLast_eq_none {c : Char} :
    ∀ {s : Chars}, splitLast c s = none ↔ c ∉ s := by
  intro s
  induction s with
  | nil => simp [splitLast]
  | cons x xs ih =>
    simp only [splitLast]
    cases hs : splitLast c xs with
    | none =>
      rw [hs] at ih
      simp at ih
      by_cases hx : x = c
      · simp [hx]
      · simp [hx, ih]
        intro hc
        exact hx hc.symm
    | some ab =>
      rw [hs] at ih
      simp at ih
      simp [ih]

/-- A successful `splitLast` decomposes the input at the last occurrence. -/
theorem splitLast_eq_some {c : Char} :
    ∀ {s x y : Chars}, splitLast c s = some (x, y) → s = x ++ c :: y ∧ c ∉ y := by
  intro s
  induction s with
  | nil => intro x y h; simp [splitLast] at h
  | cons z zs ih =>
    intro x y h
    simp only [splitLast] at h
    cases hs : splitLast c zs with
    | some ab =>
      rw [hs] at h
      obtain ⟨a, b⟩ := ab
      simp at h
      obtain ⟨hx, hy⟩ := h
      obtain ⟨hza, hzb⟩ := ih hs
      subst hy
      rw [← hx]
      exact ⟨by simp [hza], hzb⟩
    | none =>
      rw [hs] at h
      by_cases hz : z = c
      · rw [if_pos hz] at h
        simp at h
        obtain ⟨hx, hy⟩ := h
        subst hx
        subst hy
        have : c ∉ zs := splitLast_eq_none.mp hs
        simp [hz, this]
      · rw [if_neg hz] at h
        simp at h

/-- Appending a suffix without the character extends the right part of
`splitLast`. -/
theorem splitLast_append_right {c : Char} {ys : Chars} (hys : c ∉ ys) :
    ∀ {xs a b : Chars}, splitLast c xs = some (a, b) →
      splitLast c (xs ++ ys) = some (a, b ++ ys) := by
  intro xs
  induction xs with
  | nil => intro a b h; simp [splitLast] at h
  | cons z zs ih =>
    intro a b h
    simp only [splitLast] at h
    show splitLast c (z :: (zs ++ ys)) = some (a, b ++ ys)
    cases hs : splitLast c zs with
    | some ab =>
      obtain ⟨a2, b2⟩ := ab
      rw [hs] at h
      simp at h
      obtain ⟨ha, hb⟩ := h
      rw [splitLast, ih hs]
      simp [ha, hb]
    | none =>
      rw [hs] at h
      by_cases hz : z = c
      · rw [if_pos hz] at h
        simp at h
        obtain ⟨ha, hb⟩ := h
        have hnone : splitLast c (zs ++ ys) = none := by
          rw [splitLast_eq_none]
          intro hmem
          rcases List.mem_append.mp hmem with h1 | h2
          · exact (splitLast_eq_none.mp hs) h1
          · exact hys h2
        rw [splitLast, hnone, if_pos hz, ← ha, ← hb]
      · rw [if_neg hz] at h
        simp at h

/-- `takeWhile` over an all-true prefix followed by a failing head. -/
theorem takeWhile_append_stop {p : Char → Bool} :
    ∀ {a : Chars} {x : Char} (b : Chars), (∀ y ∈ a, p y = true) → p x = false →
      (a ++ x :: b).takeWhile p = a := by
  intro a
  induction a with
  | nil =>
    intro x b _ hx
    simp [List.takeWhile, hx]
  | cons z zs ih =>
    intro x b hall hx
    have hz : p z = true := hall z (List.mem_cons_self z zs)
    show ((z :: (zs ++ x :: b)).takeWhile p) = z :: zs
    rw [List.takeWhile_cons, hz]
    simp only [ih b (fun y hy => hall y (List.mem_cons_of_mem z hy)) hx]
    simp

/-- `dropWhile` over an all-true prefix followed by a failing head. -/
theorem dropWhile_append_stop {p : Char → Bool} :
    ∀ {a : Chars} {x : Char} (b : Chars), (∀ y ∈ a, p y = true) → p x = false →
      (a ++ x :: b).dropWhile p = x :: b := by
  intro a
  induction a with
  | nil =>
    intro x b _ hx
    simp [List.dropWhile, hx]
  | cons z zs ih =>
    intro x b hall hx
    have hz : p z = true := hall z (List.mem_cons_self z zs)
    show ((z :: (zs ++ x :: b)).dropWhile p) = x :: b
    rw [List.dropWhile_cons, hz]
    simp only [if_pos rfl]
    exact ih b (fun y hy => hall y (List.mem_cons_of_mem z hy)) hx

/-- `takeWhile` of an all-true list is the list. -/
theorem takeWhile_all {p : Char → Bool} :
    ∀ {a : Chars}, (∀ y ∈ a, p y = true) → a.takeWhile p = a := by
  intro a
  induction a with
  | nil => intro _; rfl
  | cons z zs ih =>
    intro hall
    rw [List.takeWhile_cons, hall z (List.mem_cons_self z zs)]
    simp only [ih (fun y hy => hall y (List.mem_cons_of_mem z hy))]
    simp

/-- `dropWhile` of an all-true list is empty. -/
theorem dropWhile_all {p : Char → Bool} :
    ∀ {a : Chars}, (∀ y ∈ a, p y = true) → a.dropWhile p = [] := by
  intro a
  induction a with
  | nil => intro _; rfl
  | cons z zs ih =>
    intro hall
    rw [List.dropWhile_cons, hall z (List.mem_cons_self z zs)]
    simp only [if_pos rfl]
    exact ih (fun y hy => hall y (List.mem_cons_of_mem z hy))

/-- The ASCII lowercase letter outputs of `lowerChar`. -/
def lowercaseLetters : Chars :=
  strChars "abcdefghijklmnopqrstuvwxyz"

/-- The ASCII uppercase letters moved by `lowerChar`. -/
def uppercaseLetters : Chars :=
  ['A', 'B', 'C', 'D', 'E', 'F', 'G', 'H', 'I', 'J', 'K', 'L', 'M',
    'N', 'O', 'P', 'Q', 'R', 'S', 'T', 'U', 'V', 'W', 'X', 'Y', 'Z']

/-- `lowerChar` either fixes its input or yields a lowercase letter. -/
theorem lowerChar_cases (c : Char) :
    lowerChar c = c ∨ lowerChar c ∈ lowercaseLetters := by
  by_cases h : c ∈ uppercaseLetters
  · right
    have hall : ∀ e ∈ uppercaseLetters, lowerChar e ∈ lowercaseLetters := by decide
    exact hall c h
  · left
    simp only [uppercaseLetters, List.mem_cons, List.not_mem_nil, or_false, not_or] at h
    obtain ⟨h1, h2, h3, h4, h5, h6, h7, h8, h9, h10, h11, h12, h13,
      h14, h15, h16, h17, h18, h19, h20, h21, h22, h23, h24, h25, h26⟩ := h
    unfold lowerChar
    rw [if_neg h1, if_neg h2, if_neg h3, if_neg h4, if_neg h5, if_neg h6, if_neg h7,
      if_neg h8, if_neg h9, if_neg h10, if_neg h11, if_neg h12, if_neg h13, if_neg h14,
      if_neg h15, if_neg h16, if_neg h17, if_neg h18, if_neg h19, if_neg h20, if_neg h21,
      if_neg h22, if_neg h23, if_neg h24, if_neg h25, if_neg h26]

/-- Lowercase letters are fixed by `lowerChar`. -/
theorem lowerChar_of_lowercase {d : Char} (hd : d ∈ lowercaseLetters) :
    lowerChar d = d := by
  have h : ∀ e ∈ lowercaseLetters, lowerChar e = e := by decide
  exact h d hd

/-- `lowerChar` is idempotent. -/
theorem lowerChar_idem (c : Char) : lowerChar (lowerChar c) = lowerChar c := by
  rcases lowerChar_cases c with h | h
  · rw [h]
    exact h
  · exact lowerChar_of_lowercase h

/-- `lowerChar` does not create netloc delimiters. -/
theorem netlocDelim_lowerChar {c : Char} (h : netlocDelim c = false) :
    netlocDelim (lowerChar c) = false := by
  rcases lowerChar_cases c with hc | hc
  · rw [hc]
    exact h
  · have hall : ∀ e ∈ lowercaseLetters, netlocDelim e = false := by decide
    exact hall _ hc

/-- `lowerChar` does not create tab, CR or LF. -/
theorem unsafeUrlByte_lowerChar {c : Char} (h : unsafeUrlByte c = false) :
    unsafeUrlByte (lowerChar c) = false := by
  rcases lowerChar_cases c with hc | hc
  · rw [hc]
    exact h
  · have hall : ∀ e ∈ lowercaseLetters, unsafeUrlByte e = false := by decide
    exact hall _ hc

/-- `lowerChars` is idempotent. -/
theorem lowerChars_idem (s : Chars) : lowerChars (lowerChars s) = lowerChars s := by
  simp only [lowerChars, List.map_map]
  apply List.map_congr_left
  intro c _
  exact lowerChar_idem c

/-- The netloc, path, query and fragment computation of `pyUrlsplit` on
what remains after an `http://`-style prefix (proof helper; the scheme
field is filled by the caller). -/
def pyUrlsplitTail (r : Chars) : UrlSplitParts :=
  let netloc := r.takeWhile (fun c => ! netlocDelim c)
  let rest1 := r.dropWhile (fun c => ! netlocDelim c)
  let fr : Chars × Chars :=
    match splitFirst '#' rest1 with
    | some (a, b) => (a, b)
    | none => (rest1, [])
  let pq : Chars × Chars :=
    match splitFirst '?' fr.1 with
    | some (a, b) => (a, b)
    | none => (fr.1, [])
  ⟨[], netloc, pq.1, pq.2, fr.2⟩

/-- The `pyUrlparse` counterpart of `pyUrlsplitTail` (proof helper;
the params split applies because `http` and `https` are in `uses_params`). -/
def pyUrlparseTail (r : Chars) : UrlParseParts :=
  let s := pyUrlsplitTail r
  let pp : Chars × Chars :=
    if ';' ∈ s.path then pySplitparams s.path else (s.path, [])
  ⟨[], s.netloc, pp.1, pp.2, s.query, s.fragment⟩

/-- On an input with an explicit `http` or `https` scheme, `pyUrlsplit`
computes `pyUrlsplitTail` of the tab-stripped remainder. -/
theorem pyUrlsplit_http_form (t : Chars) :
    pyUrlsplit (strChars "http" ++ ':' :: '/' :: '/' :: t) =
        { pyUrlsplitTail (removeUnsafeUrlBytes t) with scheme := strChars "http" } ∧
    pyUrlsplit (strChars "https" ++ ':' :: '/' :: '/' :: t) =
        { pyUrlsplitTail (removeUnsafeUrlBytes t) with scheme := strChars "https" } :=
  ⟨rfl, rfl⟩

/-- On an input with an explicit `http` scheme, `pyUrlparse` computes
`pyUrlparseTail` of the tab-stripped remainder (`http` is in
`uses_params`, so the params split applies). -/
theorem pyUrlparse_http_eq (t : Chars) :
    pyUrlparse (strChars "http" ++ ':' :: '/' :: '/' :: t) =
      { pyUrlparseTail (removeUnsafeUrlBytes t) with scheme := strChars "http" } := by
  simp only [pyUrlparse, pyUrlparseTail, (pyUrlsplit_http_form t).1]
  by_cases hd : ';' ∈ (pyUrlsplitTail (removeUnsafeUrlBytes t)).path
  · rw [if_pos ⟨by decide, hd⟩, if_pos hd]
  · rw [if_neg (fun hc => hd hc.2), if_neg hd]

/-- On an input with an explicit `https` scheme, `pyUrlparse` computes
`pyUrlparseTail` of the tab-stripped remainder. -/
theorem pyUrlparse_https_eq (t : Chars) :
    pyUrlparse (strChars "https" ++ ':' :: '/' :: '/' :: t) =
      { pyUrlparseTail (removeUnsafeUrlBytes t) with scheme := strChars "https" } := by
  simp only [pyUrlparse, pyUrlparseTail, (pyUrlsplit_http_form t).2]
  by_cases hd : ';' ∈ (pyUrlsplitTail (removeUnsafeUrlBytes t)).path
  · rw [if_pos ⟨by decide, hd⟩, if_pos hd]
  · rw [if_neg (fun hc => hd hc.2), if_neg hd]

/-- Members of a `takeWhile` result are members of the list. -/
theorem mem_takeWhile_mem {p : Char → Bool} {a : Char} :
    ∀ {l : Chars}, a ∈ l.takeWhile p → a ∈ l := by
  intro l
  induction l with
  | nil => intro h; simp at h
  | cons x xs ih =>
    intro h
    rw [List.takeWhile_cons] at h
    by_cases hx : p x = true
    · rw [hx] at h
      simp at h
      rcases h with h | h
      · simp [h]
      · exact List.mem_cons_of_mem x (ih h)
    · simp only [Bool.not_eq_true] at hx
      rw [hx] at h
      simp at h

/-- Members of a `takeWhile` result satisfy the predicate. -/
theorem mem_takeWhile_pred {p : Char → Bool} {a : Char} :
    ∀ {l : Chars}, a ∈ l.takeWhile p → p a = true := by
  intro l
  induction l with
  | nil => intro h; simp at h
  | cons x xs ih =>
    intro h
    rw [List.takeWhile_cons] at h
    by_cases hx : p x = true
    · rw [hx] at h
      simp at h
      rcases h with h | h
      · rw [h]; exact hx
      · exact ih h
    · simp only [Bool.not_eq_true] at hx
      rw [hx] at h
      simp at h

/-- Members of a `dropWhile` result are members of the list. -/
theorem mem_dropWhile_mem {p : Char → Bool} {a : Char} :
    ∀ {l : Chars}, a ∈ l.dropWhile p → a ∈ l := by
  intro l
  induction l with
  | nil => intro h; simp at h
  | cons x xs ih =>
    intro h
    rw [List.dropWhile_cons] at h
    by_cases hx : p x = true
    · rw [hx] at h
      simp at h
      exact List.mem_cons_of_mem x (ih h)
    · simp only [Bool.not_eq_true] at hx
      rw [hx] at h
      simp at h
      exact List.mem_cons.mpr h

/-- The head of a non-empty `dropWhile` result fails the predicate. -/
theorem dropWhile_head_false {p : Char → Bool} {x : Char} :
    ∀ {l xs : Chars}, l.dropWhile p = x :: xs → p x = false := by
  intro l
  induction l with
  | nil => intro xs h; simp at h
  | cons z zs ih =>
    intro xs h
    rw [List.dropWhile_cons] at h
    by_cases hz : p z = true
    · rw [hz] at h
      simp at h
      exact ih h
    · simp only [Bool.not_eq_true] at hz
      rw [hz] at h
      simp at h
      rw [← h.1]
      exact hz

/-- Netloc part of the tail computation. -/
def tailNetloc (r : Chars) : Chars :=
  r.takeWhile (fun c => ! netlocDelim c)

/-- Remainder after the netloc. -/
def tailRest1 (r : Chars) : Chars :=
  r.dropWhile (fun c => ! netlocDelim c)

/-- Remainder after dropping the fragment. -/
def tailRest2 (r : Chars) : Chars :=
  match splitFirst '#' (tailRest1 r) with
  | some ab => ab.1
  | none => tailRest1 r

/-- Fragment part of the tail computation. -/
def tailFragment (r : Chars) : Chars :=
  match splitFirst '#' (tailRest1 r) with
  | some ab => ab.2
  | none => []

/-- Path before the params split. -/
def tailPath0 (r : Chars) : Chars :=
  match splitFirst '?' (tailRest2 r) with
  | some ab => ab.1
  | none => tailRest2 r

/-- Query part of the tail computation. -/
def tailQuery (r : Chars) : Chars :=
  match splitFirst '?' (tailRest2 r) with
  | some ab => ab.2
  | none => []

/-- Path and params after the params split. -/
def tailPathParams (r : Chars) : Chars × Chars :=
  if ';' ∈ tailPath0 r then pySplitparams (tailPath0 r) else (tailPath0 r, [])

/-- The split tail in terms of the named components. -/
theorem pyUrlsplitTail_eq (r : Chars) :
    pyUrlsplitTail r = ⟨[], tailNetloc r, tailPath0 r, tailQuery r, tailFragment r⟩ := by
  simp only [pyUrlsplitTail, tailNetloc, tailRest1, tailRest2, tailFragment, tailPath0,
    tailQuery]
  cases hf : splitFirst '#' (r.dropWhile (fun c => ! netlocDelim c)) with
  | none =>
    cases hq : splitFirst '?' (r.dropWhile (fun c => ! netlocDelim c)) <;> rfl
  | some ab =>
    cases hq : splitFirst '?' ab.1 <;> rfl

/-- The parse tail in terms of the named components. -/
theorem pyUrlparseTail_eq (r : Chars) :
    pyUrlparseTail r = ⟨[], tailNetloc r, (tailPathParams r).1, (tailPathParams r).2,
      tailQuery r, tailFragment r⟩ := by
  simp only [pyUrlparseTail, pyUrlsplitTail_eq, tailPathParams]

/-- Netloc characters are non-delimiters drawn from the input. -/
theorem tailNetloc_spec (r : Chars) :
    ∀ c ∈ tailNetloc r, netlocDelim c = false ∧ c ∈ r := by
  intro c hc
  constructor
  · have := mem_takeWhile_pred hc
    simpa using this
  · exact mem_takeWhile_mem hc

/-- A prefix determines the head of a non-empty list. -/
theorem isPrefix_head {a b : Chars} (h : a <+: b) (hne : a ≠ []) : a.head? = b.head? := by
  obtain ⟨t, ht⟩ := h
  subst ht
  cases a with
  | nil => exact absurd rfl hne
  | cons x xs => rfl

/-- The fragment-stripped remainder: a prefix of the netloc remainder with
no hash. -/
theorem tailRest2_spec (r : Chars) :
    tailRest2 r <+: tailRest1 r ∧ '#' ∉ tailRest2 r := by
  unfold tailRest2
  cases hf : splitFirst '#' (tailRest1 r) with
  | none =>
    exact ⟨List.prefix_refl _, splitFirst_eq_none.mp hf⟩
  | some ab =>
    obtain ⟨hdec, hnm⟩ := splitFirst_eq_some (s := tailRest1 r) (x := ab.1) (y := ab.2)
      (by rw [hf])
    exact ⟨⟨'#' :: ab.2, hdec.symm⟩, hnm⟩

/-- The pre-params path: a prefix of the fragment-stripped remainder with
no question mark. -/
theorem tailPath0_spec (r : Chars) :
    tailPath0 r <+: tailRest2 r ∧ '?' ∉ tailPath0 r := by
  unfold tailPath0
  cases hq : splitFirst '?' (tailRest2 r) with
  | none =>
    exact ⟨List.prefix_refl _, splitFirst_eq_none.mp hq⟩
  | some ab =>
    obtain ⟨hdec, hnm⟩ := splitFirst_eq_some (s := tailRest2 r) (x := ab.1) (y := ab.2)
      (by rw [hq])
    exact ⟨⟨'?' :: ab.2, hdec.symm⟩, hnm⟩

/-- The query: no hash, and drawn from the fragment-stripped remainder. -/
theorem tailQuery_spec (r : Chars) :
    '#' ∉ tailQuery r ∧ ∀ c ∈ tailQuery r, c ∈ tailRest2 r := by
  unfold tailQuery
  cases hq : splitFirst '?' (tailRest2 r) with
  | none => simp
  | some ab =>
    obtain ⟨hdec, _⟩ := splitFirst_eq_some (s := tailRest2 r) (x := ab.1) (y := ab.2)
      (by rw [hq])
    have hsub : ∀ c ∈ ab.2, c ∈ tailRest2 r := by
      intro c hc
      rw [hdec]
      exact List.mem_append.mpr (Or.inr (List.mem_cons_of_mem _ hc))
    constructor
    · intro hmem
      exact (tailRest2_spec r).2 (hsub '#' hmem)
    · exact hsub

/-- No hash in the pre-params path, and its characters come from the
input. -/
theorem tailPath0_facts (r : Chars) :
    '#' ∉ tailPath0 r ∧ (∀ c ∈ tailPath0 r, c ∈ r) := by
  have h0 := tailPath0_spec r
  have h2 := tailRest2_spec r
  constructor
  · intro hmem
    exact h2.2 (h0.1.subset hmem)
  · intro c hc
    exact mem_dropWhile_mem (h2.1.subset (h0.1.subset hc))

/-- A non-empty pre-params path starts with a slash. -/
theorem tailPath0_head (r : Chars) (hne : tailPath0 r ≠ []) :
    (tailPath0 r).head? = some '/' := by
  have h0 := tailPath0_spec r
  have h2 := tailRest2_spec r
  have hne2 : tailRest2 r ≠ [] := by
    intro h
    rw [h] at h0
    exact hne (List.prefix_nil.mp h0.1)
  have hh1 : (tailPath0 r).head? = (tailRest2 r).head? := isPrefix_head h0.1 hne
  have hh2 : (tailRest2 r).head? = (tailRest1 r).head? := isPrefix_head h2.1 hne2
  cases hr1 : tailRest1 r with
  | nil =>
    exfalso
    apply hne2
    have := h2.1
    rw [hr1] at this
    exact List.prefix_nil.mp this
  | cons x xs =>
    have hx : netlocDelim x = true := by
      have := dropWhile_head_false (p := fun c => ! netlocDelim c) hr1
      simpa using this
    have hxmem : x ∈ tailPath0 r := by
      cases hp0 : tailPath0 r with
      | nil => exact absurd hp0 hne
      | cons y ys =>
        have hhx : (tailPath0 r).head? = some x := by
          rw [hh1, hh2, hr1]
          rfl
        rw [hp0] at hhx
        simp at hhx
        rw [hhx]
        exact List.mem_cons_self _ _
    have hxh : x ≠ '#' := fun h => (tailPath0_facts r).1 (h ▸ hxmem)
    have hxq : x ≠ '?' := fun h => h0.2 (h ▸ hxmem)
    have hxs : x = '/' := by
      simp only [netlocDelim, Bool.or_eq_true, decide_eq_true_eq] at hx
      rcases hx with (h | h) | h
      · exact h
      · exact absurd h hxq
      · exact absurd h hxh
    rw [hh1, hh2, hr1, hxs]
    rfl

/-- `splitLast` splits at the last occurrence. -/
theorem splitLast_append_cons {c : Char} :
    ∀ {a : Chars} (b : Chars), c ∉ b → splitLast c (a ++ c :: b) = some (a, b) := by
  intro a
  induction a with
  | nil =>
    intro b hc
    show splitLast c (c :: b) = some ([], b)
    rw [splitLast, splitLast_eq_none.mpr hc, if_pos rfl]
  | cons x xs ih =>
    intro b hc
    show splitLast c (x :: (xs ++ c :: b)) = some (x :: xs, b)
    rw [splitLast, ih b hc]

/-- A present character gives a successful `splitLast`. -/
theorem splitLast_of_mem {c : Char} {s : Chars} (h : c ∈ s) :
    ∃ a b, splitLast c s = some (a, b) := by
  cases hs : splitLast c s with
  | none => exact absurd h (splitLast_eq_none.mp hs)
  | some ab =>
    obtain ⟨a, b⟩ := ab
    exact ⟨a, b, rfl⟩

/-- The path after the params split: starts with a slash when the
pre-params path does, has no hash or question mark, splits at its last
slash with a semicolon-free last segment, and its characters come from the
pre-params path.  The params have no slash, hash or question mark and come
from the pre-params path. -/
theorem tailPathParams_spec (r : Chars) (hne : tailPath0 r ≠ []) :
    ((tailPathParams r).1.head? = some '/') ∧
    ('#' ∉ (tailPathParams r).1 ∧ '?' ∉ (tailPathParams r).1) ∧
    (∀ c ∈ (tailPathParams r).1, c ∈ tailPath0 r) ∧
    (∃ a b, splitLast '/' (tailPathParams r).1 = some (a, b) ∧ ';' ∉ b) ∧
    ('/' ∉ (tailPathParams r).2 ∧ '#' ∉ (tailPathParams r).2 ∧ '?' ∉ (tailPathParams r).2) ∧
    (∀ c ∈ (tailPathParams r).2, c ∈ tailPath0 r) := by
  have hhead := tailPath0_head r hne
  have hfacts := tailPath0_facts r
  have hq := (tailPath0_spec r).2
  have hslash : '/' ∈ tailPath0 r := by
    cases hp : tailPath0 r with
    | nil => exact absurd hp hne
    | cons y ys =>
      rw [hp] at hhead
      simp at hhead
      simp [hhead]
  obtain ⟨a0, b0, hsl⟩ := splitLast_of_mem hslash
  obtain ⟨hdec0, hnb0⟩ := splitLast_eq_some hsl
  unfold tailPathParams
  by_cases hd : ';' ∈ tailPath0 r
  · rw [if_pos hd]
    cases hsf : splitFirst ';' b0 with
    | none =>
      have hval : pySplitparams (tailPath0 r) = (tailPath0 r, []) := by
        unfold pySplitparams
        simp only [hsl, hsf]
      rw [hval]
      refine ⟨hhead, ⟨hfacts.1, hq⟩, fun c hc => hc, ⟨a0, b0, hsl, splitFirst_eq_none.mp hsf⟩,
        ⟨by simp, by simp, by simp⟩, by simp⟩
    | some b12 =>
      obtain ⟨b1, b2⟩ := b12
      have hval : pySplitparams (tailPath0 r) = (a0 ++ '/' :: b1, b2) := by
        unfold pySplitparams
        simp only [hsl, hsf]
      rw [hval]
      obtain ⟨hdec1, hnb1⟩ := splitFirst_eq_some (s := b0) (x := b1) (y := b2) (by rw [hsf])
      have hsub1 : ∀ c ∈ a0 ++ '/' :: b1, c ∈ tailPath0 r := by
        intro c hc
        rw [hdec0, hdec1]
        rcases List.mem_append.mp hc with h1 | h2
        · exact List.mem_append.mpr (Or.inl h1)
        · rcases List.mem_cons.mp h2 with h3 | h4
          · exact List.mem_append.mpr (Or.inr (h3 ▸ List.mem_cons_self _ _))
          · exact List.mem_append.mpr
              (Or.inr (List.mem_cons_of_mem _ (List.mem_append.mpr (Or.inl h4))))
      have hsub2 : ∀ c ∈ b2, c ∈ tailPath0 r := by
        intro c hc
        rw [hdec0, hdec1]
        exact List.mem_append.mpr (Or.inr (List.mem_cons_of_mem _
          (List.mem_append.mpr (Or.inr (List.mem_cons_of_mem _ hc)))))
      have hb1slash : '/' ∉ b1 := by
        intro hmem
        apply hnb0
        rw [hdec1]
        exact List.mem_append.mpr (Or.inl hmem)
      refine ⟨?_, ⟨?_, ?_⟩, hsub1, ⟨a0, b1, splitLast_append_cons b1 hb1slash, hnb1⟩,
        ⟨?_, ?_, ?_⟩, hsub2⟩
      · cases ha0 : a0 with
        | nil =>
          rw [ha0] at hdec0
          rw [hdec0] at hhead
          simpa using hhead
        | cons z zs =>
          rw [ha0] at hdec0
          rw [hdec0] at hhead
          simp at hhead
          simp [hhead]
      · intro hmem
        exact hfacts.1 (hsub1 _ hmem)
      · intro hmem
        exact hq (hsub1 _ hmem)
      · intro hmem
        apply hnb0
        rw [hdec1]
        exact List.mem_append.mpr (Or.inr (List.mem_cons_of_mem _ hmem))
      · intro hmem
        exact hfacts.1 (hsub2 _ hmem)
      · intro hmem
        exact hq (hsub2 _ hmem)
  · rw [if_neg hd]
    refine ⟨hhead, ⟨hfacts.1, hq⟩, fun c hc => hc,
      ⟨a0, b0, hsl, fun hmem => hd ?_⟩, ⟨by simp, by simp, by simp⟩, by simp⟩
    rw [hdec0]
    exact List.mem_append.mpr (Or.inr (List.mem_cons_of_mem _ hmem))

/-- Netloc and fragment stage of the tail computation on a delimiter-free
netloc followed by a slash-led, hash-free remainder. -/
theorem tail_stage1 (n Y : Chars) (hn : ∀ c ∈ n, netlocDelim c = false)
    (hY : Y.head? = some '/') (hYh : '#' ∉ Y) :
    tailNetloc (n ++ Y) = n ∧ tailRest2 (n ++ Y) = Y ∧ tailFragment (n ++ Y) = [] := by
  obtain ⟨Yt, hYt⟩ : ∃ t, Y = '/' :: t := by
    cases Y with
    | nil => simp at hY
    | cons y ys =>
      simp at hY
      exact ⟨ys, by rw [hY]⟩
  have hall : ∀ y ∈ n, (fun c => ! netlocDelim c) y = true := by
    intro y hy
    simp [hn y hy]
  have hstop : (fun c => ! netlocDelim c) '/' = false := by decide
  have h1a : tailNetloc (n ++ Y) = n := by
    unfold tailNetloc
    rw [hYt]
    exact takeWhile_append_stop Yt hall hstop
  have h1b : tailRest1 (n ++ Y) = Y := by
    unfold tailRest1
    rw [hYt]
    exact dropWhile_append_stop Yt hall hstop
  have hf : splitFirst '#' (tailRest1 (n ++ Y)) = none := by
    rw [h1b]
    exact splitFirst_eq_none.mpr hYh
  refine ⟨h1a, ?_, ?_⟩
  · unfold tailRest2
    rw [hf]
    exact h1b
  · unfold tailFragment
    rw [hf]

/-- Query stage of the tail computation. -/
theorem tail_stage2 (r u q : Chars)
    (h2 : tailRest2 r = (if q = [] then u else u ++ '?' :: q))
    (hu : '?' ∉ u) : tailPath0 r = u ∧ tailQuery r = q := by
  by_cases hq0 : q = []
  · rw [if_pos hq0] at h2
    have hnone : splitFirst '?' (tailRest2 r) = none := by
      rw [h2]
      exact splitFirst_eq_none.mpr hu
    subst hq0
    constructor
    · unfold tailPath0
      rw [hnone]
      exact h2
    · unfold tailQuery
      rw [hnone]
  · rw [if_neg hq0] at h2
    have hsome : splitFirst '?' (tailRest2 r) = some (u, q) := by
      rw [h2]
      exact splitFirst_append_cons q hu
    constructor
    · unfold tailPath0
      rw [hsome]
    · unfold tailQuery
      rw [hsome]

/-- Params stage of the tail computation. -/
theorem tail_stage3 (r p par : Chars)
    (hpath : tailPath0 r = (if par = [] then p else p ++ ';' :: par))
    (hseg : ∃ a b, splitLast '/' p = some (a, b) ∧ ';' ∉ b)
    (hpar_slash : '/' ∉ par) :
    tailPathParams r = (p, par) := by
  obtain ⟨a, b, hsl, hsnb⟩ := hseg
  have hpdec := (splitLast_eq_some hsl).1
  by_cases hpar : par = []
  · rw [if_pos hpar] at hpath
    subst hpar
    unfold tailPathParams
    rw [hpath]
    by_cases hd : ';' ∈ p
    · rw [if_pos hd]
      unfold pySplitparams
      simp only [hsl, splitFirst_eq_none.mpr hsnb]
    · rw [if_neg hd]
  · rw [if_neg hpar] at hpath
    have hd : ';' ∈ p ++ ';' :: par :=
      List.mem_append.mpr (Or.inr (List.mem_cons_self _ _))
    have hys : '/' ∉ ';' :: par := by
      intro hmem
      rcases List.mem_cons.mp hmem with h1 | h2
      · exact absurd h1.symm (by decide)
      · exact hpar_slash h2
    have hsl2 : splitLast '/' (p ++ ';' :: par) = some (a, b ++ ';' :: par) :=
      splitLast_append_right hys hsl
    have hsf2 : splitFirst ';' (b ++ ';' :: par) = some (b, par) :=
      splitFirst_append_cons par hsnb
    unfold tailPathParams
    rw [hpath, if_pos hd]
    unfold pySplitparams
    simp only [hsl2, hsf2, ← hpdec]

/-- The tail computation on components already in normal form returns the
components unchanged. -/
theorem pyUrlparseTail_normal (n p par q : Chars)
    (hn_delim : ∀ c ∈ n, netlocDelim c = false)
    (hp_head : p.head? = some '/') (hp_hash : '#' ∉ p) (hp_query : '?' ∉ p)
    (hseg : ∃ a b, splitLast '/' p = some (a, b) ∧ ';' ∉ b)
    (hpar_slash : '/' ∉ par) (hpar_hash : '#' ∉ par) (hpar_query : '?' ∉ par)
    (hq_hash : '#' ∉ q) :
    pyUrlparseTail (n ++ ((if par = [] then p else p ++ ';' :: par) ++
        (if q = [] then [] else '?' :: q))) =
      ⟨[], n, p, par, q, []⟩ := by
  obtain ⟨p2, hp2⟩ : ∃ t, p = '/' :: t := by
    cases p with
    | nil => simp at hp_head
    | cons y ys =>
      simp at hp_head
      exact ⟨ys, by rw [hp_head]⟩
  have hu_query : '?' ∉ (if par = [] then p else p ++ ';' :: par) := by
    by_cases hpar : par = []
    · rw [if_pos hpar]
      exact hp_query
    · rw [if_neg hpar]
      intro hmem
      rcases List.mem_append.mp hmem with h1 | h2
      · exact hp_query h1
      · rcases List.mem_cons.mp h2 with h3 | h4
        · exact absurd h3 (by decide)
        · exact hpar_query h4
  have hu_hash : '#' ∉ (if par = [] then p else p ++ ';' :: par) := by
    by_cases hpar : par = []
    · rw [if_pos hpar]
      exact hp_hash
    · rw [if_neg hpar]
      intro hmem
      rcases List.mem_append.mp hmem with h1 | h2
      · exact hp_hash h1
      · rcases List.mem_cons.mp h2 with h3 | h4
        · exact absurd h3 (by decide)
        · exact hpar_hash h4
  have hu_head : ((if par = [] then p else p ++ ';' :: par)).head? = some '/' := by
    by_cases hpar : par = []
    · rw [if_pos hpar]
      exact hp_head
    · rw [if_neg hpar, hp2]
      rfl
  have hY_head : ((if par = [] then p else p ++ ';' :: par) ++
      (if q = [] then [] else '?' :: q)).head? = some '/' := by
    cases hu : (if par = [] then p else p ++ ';' :: par) with
    | nil => rw [hu] at hu_head; simp at hu_head
    | cons z zs =>
      rw [hu] at hu_head
      simp at hu_head
      rw [hu_head]
      rfl
  have hY_hash : '#' ∉ ((if par = [] then p else p ++ ';' :: par) ++
      (if q = [] then [] else '?' :: q)) := by
    intro hmem
    rcases List.mem_append.mp hmem with h1 | h2
    · exact hu_hash h1
    · by_cases hq0 : q = []
      · rw [if_pos hq0] at h2
        simp at h2
      · rw [if_neg hq0] at h2
        rcases List.mem_cons.mp h2 with h3 | h4
        · exact absurd h3 (by decide)
        · exact hq_hash h4
  have hs1 := tail_stage1 n _ hn_delim hY_head hY_hash
  have hY_if : ((if par = [] then p else p ++ ';' :: par) ++
      (if q = [] then [] else '?' :: q)) =
      (if q = [] then (if par = [] then p else p ++ ';' :: par)
        else (if par = [] then p else p ++ ';' :: par) ++ '?' :: q) := by
    by_cases hq0 : q = []
    · rw [if_pos hq0, if_pos hq0, List.append_nil]
    · rw [if_neg hq0, if_neg hq0]
  have hs2 := tail_stage2 _ (if par = [] then p else p ++ ';' :: par) q
    (by rw [hs1.2.1, hY_if]) hu_query
  have hs3 := tail_stage3 _ p par hs2.1 hseg hpar_slash
  rw [pyUrlparseTail_eq, hs1.1, hs2.2, hs1.2.2, hs3]

/-- Normal form of the components produced by one `normalize_url` pass:
an explicit `http`/`https` scheme, a non-empty, already-lowercased netloc
free of delimiters and of any residual default port, a slash-led path with
a semicolon-free last segment, params and query without structural
delimiters, and no tab/CR/LF anywhere. -/
structure UrlNormalForm (s n p par q : Chars) : Prop where
  scheme_ok : s = strChars "http" ∨ s = strChars "https"
  netloc_ne : n ≠ []
  netloc_delim : ∀ c ∈ n, netlocDelim c = false
  netloc_clean : ∀ c ∈ n, unsafeUrlByte c = false
  netloc_lower : lowerChars n = n
  netloc_port80 : ¬ (endsWithChars (strChars ":80") n = true ∧ s = strChars "http")
  netloc_port443 : ¬ (endsWithChars (strChars ":443") n = true ∧ s = strChars "https")
  path_head : p.head? = some '/'
  path_hash : '#' ∉ p
  path_query : '?' ∉ p
  path_clean : ∀ c ∈ p, unsafeUrlByte c = false
  path_seg : ∃ a b, splitLast '/' p = some (a, b) ∧ ';' ∉ b
  params_slash : '/' ∉ par
  params_hash : '#' ∉ par
  params_query : '?' ∉ par
  params_clean : ∀ c ∈ par, unsafeUrlByte c = false
  query_hash : '#' ∉ q
  query_clean : ∀ c ∈ q, unsafeUrlByte c = false

/-- Rebuilding normal-form components gives the expected scheme-first
shape. -/
theorem pyUrlunparse_normal (s n p par q : Chars) (hn : n ≠ [])
    (hph : p.head? = some '/') (hs : s ≠ []) :
    pyUrlunparse s n p par q [] =
      s ++ ':' :: '/' :: '/' :: (n ++ ((if par = [] then p else p ++ ';' :: par) ++
        (if q = [] then [] else '?' :: q))) := by
  obtain ⟨p2, hp2⟩ : ∃ t, p = '/' :: t := by
    cases p with
    | nil => simp at hph
    | cons y ys =>
      simp at hph
      exact ⟨ys, by rw [hph]⟩
  have hu_eq : (if par ≠ [] then p ++ ';' :: par else p) =
      (if par = [] then p else p ++ ';' :: par) := by
    by_cases hpar : par = [] <;> simp [hpar]
  have hu_head : ∃ t, (if par = [] then p else p ++ ';' :: par) = '/' :: t := by
    by_cases hpar : par = []
    · rw [if_pos hpar, hp2]
      exact ⟨p2, rfl⟩
    · rw [if_neg hpar, hp2]
      exact ⟨p2 ++ ';' :: par, rfl⟩
  obtain ⟨ut, hut⟩ := hu_head
  simp only [pyUrlunparse, pyUrlunsplit, hu_eq, hut]
  have hcond : n ≠ [] ∨ (s ≠ [] ∧ s ∈ usesNetloc ∧ ('/' :: ut).take 2 ≠ ['/', '/']) :=
    Or.inl hn
  rw [if_pos hcond]
  have hinner : ¬ (('/' :: ut) ≠ [] ∧ ('/' :: ut).take 1 ≠ ['/']) := by
    intro h
    exact h.2 (by simp)
  rw [if_neg hinner, if_pos hs]
  by_cases hq0 : q = []
  · subst hq0
    simp
  · rw [if_pos (show q ≠ [] from hq0), if_neg hq0]
    simp

/-- C9 fixpoint: `normalize_url` leaves a URL rebuilt from normal-form
components unchanged, provided the rebuilt URL has no surrounding
whitespace. -/
theorem normalizeUrl_fixpoint (s n p par q : Chars) (nf : UrlNormalForm s n p par q)
    (hstrip : pyStrip (pyUrlunparse s n p par q []) = pyUrlunparse s n p par q []) :
    normalizeUrl (pyUrlunparse s n p par q []) = pyUrlunparse s n p par q [] := by
  have hsne : s ≠ [] := by
    rcases nf.scheme_ok with h | h <;> rw [h] <;> decide
  have hv := pyUrlunparse_normal s n p par q nf.netloc_ne nf.path_head hsne
  have hclean : removeUnsafeUrlBytes (n ++ ((if par = [] then p else p ++ ';' :: par) ++
      (if q = [] then [] else '?' :: q))) =
      n ++ ((if par = [] then p else p ++ ';' :: par) ++
        (if q = [] then [] else '?' :: q)) := by
    rw [removeUnsafeUrlBytes, List.filter_eq_self]
    intro c hc
    rcases List.mem_append.mp hc with h1 | h2
    · simp [nf.netloc_clean c h1]
    · rcases List.mem_append.mp h2 with h3 | h4
      · by_cases hpar : par = []
        · rw [if_pos hpar] at h3
          simp [nf.path_clean c h3]
        · rw [if_neg hpar] at h3
          rcases List.mem_append.mp h3 with h5 | h6
          · simp [nf.path_clean c h5]
          · rcases List.mem_cons.mp h6 with h7 | h8
            · subst h7; decide
            · simp [nf.params_clean c h8]
      · by_cases hq0 : q = []
        · rw [if_pos hq0] at h4
          simp at h4
        · rw [if_neg hq0] at h4
          rcases List.mem_cons.mp h4 with h5 | h6
          · subst h5; decide
          · simp [nf.query_clean c h6]
  have hptail := pyUrlparseTail_normal n p par q nf.netloc_delim nf.path_head nf.path_hash
    nf.path_query nf.path_seg nf.params_slash nf.params_hash nf.params_query nf.query_hash
  have hvne : pyUrlunparse s n p par q [] ≠ [] := by
    rw [hv]
    rcases nf.scheme_ok with h | h <;> rw [h] <;> simp [strChars]
  have hhas : hasHttpScheme (pyUrlunparse s n p par q []) = true := by
    rw [hv]
    rcases nf.scheme_ok with h | h <;> rw [h]
    · have hshape : strChars "http" ++ ':' :: '/' :: '/' ::
          (n ++ ((if par = [] then p else p ++ ';' :: par) ++
            (if q = [] then [] else '?' :: q))) =
          httpSlashes ++ (n ++ ((if par = [] then p else p ++ ';' :: par) ++
            (if q = [] then [] else '?' :: q))) := rfl
      rw [hshape]
      unfold hasHttpScheme
      rw [startsWithChars_append]
      simp
    · have hshape : strChars "https" ++ ':' :: '/' :: '/' ::
          (n ++ ((if par = [] then p else p ++ ';' :: par) ++
            (if q = [] then [] else '?' :: q))) =
          httpsSlashes ++ (n ++ ((if par = [] then p else p ++ ';' :: par) ++
            (if q = [] then [] else '?' :: q))) := rfl
      rw [hshape]
      unfold hasHttpScheme
      rw [startsWithChars_append]
      simp
  have hpre : preprocessUrl (pyUrlunparse s n p par q []) = pyUrlunparse s n p par q [] := by
    unfold preprocessUrl
    rw [hstrip, if_pos hhas]
  have hparse : normalizeParts (pyUrlunparse s n p par q []) = ⟨s, n, p, par, q, []⟩ := by
    unfold normalizeParts
    rw [hpre, hv]
    rcases nf.scheme_ok with h | h <;> rw [h]
    · rw [pyUrlparse_http_eq, hclean, hptail]
    · rw [pyUrlparse_https_eq, hclean, hptail]
  have hpne : p ≠ [] := by
    intro h
    rw [h] at nf
    have := nf.path_head
    simp at this
  have hnn : normalizedNetloc (pyUrlunparse s n p par q []) = n := by
    unfold normalizedNetloc
    rw [hparse]
    show stripDefaultPort s (lowerChars n) = n
    rw [nf.netloc_lower]
    unfold stripDefaultPort
    rw [if_neg nf.netloc_port80, if_neg nf.netloc_port443]
  unfold normalizeUrl
  rw [if_neg hvne, hparse, hnn]
  show pyUrlunparse s n (if p = [] then strChars "/" else p) par q [] =
    pyUrlunparse s n p par q []
  rw [if_neg hpne]

/-- Characters surviving the tab/CR/LF removal are clean. -/
theorem mem_removeUnsafe_clean {c : Char} {t : Chars} (h : c ∈ removeUnsafeUrlBytes t) :
    unsafeUrlByte c = false := by
  have := (List.mem_filter.mp h).2
  simpa using this

/-- Port stripping keeps a subset of the characters. -/
theorem stripDefaultPort_subset (s y : Chars) :
    ∀ c ∈ stripDefaultPort s y, c ∈ y := by
  intro c hc
  unfold stripDefaultPort at hc
  split at hc
  · exact List.mem_of_mem_take hc
  · split at hc
    · exact List.mem_of_mem_take hc
    · exact hc

/-- Port stripping preserves being lowercase. -/
theorem lowerChars_stripDefaultPort (s y : Chars) (hy : lowerChars y = y) :
    lowerChars (stripDefaultPort s y) = stripDefaultPort s y := by
  unfold stripDefaultPort
  split
  · rw [lowerChars, List.map_take]
    show List.take (y.length - 3) (lowerChars y) = _
    rw [hy]
  · split
    · rw [lowerChars, List.map_take]
      show List.take (y.length - 4) (lowerChars y) = _
      rw [hy]
    · exact hy

/-- The preprocessed input always carries an explicit scheme. -/
theorem hasHttpScheme_preprocess (u : Chars) : hasHttpScheme (preprocessUrl u) = true := by
  unfold preprocessUrl
  by_cases h : hasHttpScheme (pyStrip u) = true
  · rw [if_pos h]
    exact h
  · rw [if_neg (by simpa using h)]
    unfold hasHttpScheme
    rw [startsWithChars_append]
    simp

/-- Core of the amended idempotence claim, stated for a known scheme. -/
theorem normalize_amended_main (u t s : Chars)
    (hs : s = strChars "http" ∨ s = strChars "https")
    (hP : normalizeParts u = { pyUrlparseTail (removeUnsafeUrlBytes t) with scheme := s })
    (h1 : normalizedNetloc u ≠ [])
    (hp80 : ¬ (endsWithChars (strChars ":80") (normalizedNetloc u) = true ∧
        s = strChars "http"))
    (hp443 : ¬ (endsWithChars (strChars ":443") (normalizedNetloc u) = true ∧
        s = strChars "https"))
    (h4 : pyStrip (normalizeUrl u) = normalizeUrl u)
    (hu : u ≠ []) :
    normalizeUrl (normalizeUrl u) = normalizeUrl u := by
  have hTn : (pyUrlparseTail (removeUnsafeUrlBytes t)).netloc =
      tailNetloc (removeUnsafeUrlBytes t) := by rw [pyUrlparseTail_eq]
  have hTp : (pyUrlparseTail (removeUnsafeUrlBytes t)).path =
      (tailPathParams (removeUnsafeUrlBytes t)).1 := by rw [pyUrlparseTail_eq]
  have hTpar : (pyUrlparseTail (removeUnsafeUrlBytes t)).params =
      (tailPathParams (removeUnsafeUrlBytes t)).2 := by rw [pyUrlparseTail_eq]
  have hTq : (pyUrlparseTail (removeUnsafeUrlBytes t)).query =
      tailQuery (removeUnsafeUrlBytes t) := by rw [pyUrlparseTail_eq]
  have hnn : normalizedNetloc u =
      stripDefaultPort s (lowerChars (tailNetloc (removeUnsafeUrlBytes t))) := by
    unfold normalizedNetloc
    rw [hP]
    show stripDefaultPort s
      (lowerChars (pyUrlparseTail (removeUnsafeUrlBytes t)).netloc) = _
    rw [hTn]
  have hn_delim : ∀ c ∈ normalizedNetloc u, netlocDelim c = false := by
    intro c hc
    rw [hnn] at hc
    have hc2 := stripDefaultPort_subset _ _ c hc
    rcases List.mem_map.mp hc2 with ⟨d, hd, hdc⟩
    rw [← hdc]
    exact netlocDelim_lowerChar (tailNetloc_spec _ d hd).1
  have hn_clean : ∀ c ∈ normalizedNetloc u, unsafeUrlByte c = false := by
    intro c hc
    rw [hnn] at hc
    have hc2 := stripDefaultPort_subset _ _ c hc
    rcases List.mem_map.mp hc2 with ⟨d, hd, hdc⟩
    rw [← hdc]
    exact unsafeUrlByte_lowerChar (mem_removeUnsafe_clean (tailNetloc_spec _ d hd).2)
  have hn_lower : lowerChars (normalizedNetloc u) = normalizedNetloc u := by
    rw [hnn]
    exact lowerChars_stripDefaultPort _ _ (lowerChars_idem _)
  have hq_hash : '#' ∉ tailQuery (removeUnsafeUrlBytes t) :=
    (tailQuery_spec (removeUnsafeUrlBytes t)).1
  have hq_clean : ∀ c ∈ tailQuery (removeUnsafeUrlBytes t), unsafeUrlByte c = false := by
    intro c hc
    exact mem_removeUnsafe_clean (mem_dropWhile_mem
      ((tailRest2_spec (removeUnsafeUrlBytes t)).1.subset
        ((tailQuery_spec (removeUnsafeUrlBytes t)).2 c hc)))
  have hveq : normalizeUrl u =
      pyUrlunparse s (normalizedNetloc u)
        (if (tailPathParams (removeUnsafeUrlBytes t)).1 = [] then strChars "/"
          else (tailPathParams (removeUnsafeUrlBytes t)).1)
        (tailPathParams (removeUnsafeUrlBytes t)).2
        (tailQuery (removeUnsafeUrlBytes t)) [] := by
    unfold normalizeUrl
    rw [if_neg hu]
    show pyUrlunparse (normalizeParts u).scheme (normalizedNetloc u)
        (if (normalizeParts u).path = [] then strChars "/" else (normalizeParts u).path)
        (normalizeParts u).params (normalizeParts u).query [] = _
    rw [hP]
    show pyUrlunparse s (normalizedNetloc u)
        (if (pyUrlparseTail (removeUnsafeUrlBytes t)).path = [] then strChars "/"
          else (pyUrlparseTail (removeUnsafeUrlBytes t)).path)
        (pyUrlparseTail (removeUnsafeUrlBytes t)).params
        (pyUrlparseTail (removeUnsafeUrlBytes t)).query [] = _
    rw [hTp, hTpar, hTq]
  by_cases hpe : tailPath0 (removeUnsafeUrlBytes t) = []
  · have hpp : tailPathParams (removeUnsafeUrlBytes t) = ([], []) := by
      unfold tailPathParams
      rw [hpe]
      simp
    have hveq2 : normalizeUrl u =
        pyUrlunparse s (normalizedNetloc u) (strChars "/") []
          (tailQuery (removeUnsafeUrlBytes t)) [] := by
      rw [hveq, hpp]
      rfl
    have hnf : UrlNormalForm s (normalizedNetloc u) (strChars "/") []
        (tailQuery (removeUnsafeUrlBytes t)) :=
      { scheme_ok := hs
        netloc_ne := h1
        netloc_delim := hn_delim
        netloc_clean := hn_clean
        netloc_lower := hn_lower
        netloc_port80 := hp80
        netloc_port443 := hp443
        path_head := rfl
        path_hash := by decide
        path_query := by decide
        path_clean := by decide
        path_seg := ⟨[], [], by decide, by decide⟩
        params_slash := by decide
        params_hash := by decide
        params_query := by decide
        params_clean := by decide
        query_hash := hq_hash
        query_clean := hq_clean }
    rw [hveq2] at h4 ⊢
    exact normalizeUrl_fixpoint s (normalizedNetloc u) (strChars "/") []
      (tailQuery (removeUnsafeUrlBytes t)) hnf h4
  · have hspec := tailPathParams_spec (removeUnsafeUrlBytes t) hpe
    have hp1ne : (tailPathParams (removeUnsafeUrlBytes t)).1 ≠ [] := by
      intro h
      rw [h] at hspec
      simp at hspec
    have hveq2 : normalizeUrl u =
        pyUrlunparse s (normalizedNetloc u) (tailPathParams (removeUnsafeUrlBytes t)).1
          (tailPathParams (removeUnsafeUrlBytes t)).2
          (tailQuery (removeUnsafeUrlBytes t)) [] := by
      rw [hveq, if_neg hp1ne]
    have hpath_clean : ∀ c ∈ (tailPathParams (removeUnsafeUrlBytes t)).1,
        unsafeUrlByte c = false := by
      intro c hc
      exact mem_removeUnsafe_clean
        ((tailPath0_facts (removeUnsafeUrlBytes t)).2 c (hspec.2.2.1 c hc))
    have hpar_clean : ∀ c ∈ (tailPathParams (removeUnsafeUrlBytes t)).2,
        unsafeUrlByte c = false := by
      intro c hc
      exact mem_removeUnsafe_clean
        ((tailPath0_facts (removeUnsafeUrlBytes t)).2 c (hspec.2.2.2.2.2 c hc))
    have hnf : UrlNormalForm s (normalizedNetloc u)
        (tailPathParams (removeUnsafeUrlBytes t)).1
        (tailPathParams (removeUnsafeUrlBytes t)).2
        (tailQuery (removeUnsafeUrlBytes t)) :=
      { scheme_ok := hs
        netloc_ne := h1
        netloc_delim := hn_delim
        netloc_clean := hn_clean
        netloc_lower := hn_lower
        netloc_port80 := hp80
        netloc_port443 := hp443
        path_head := hspec.1
        path_hash := hspec.2.1.1
        path_query := hspec.2.1.2
        path_clean := hpath_clean
        path_seg := hspec.2.2.2.1
        params_slash := hspec.2.2.2.2.1.1
        params_hash := hspec.2.2.2.2.1.2.1
        params_query := hspec.2.2.2.2.1.2.2
        params_clean := hpar_clean
        query_hash := hq_hash
        query_clean := hq_clean }
    rw [hveq2] at h4 ⊢
    exact normalizeUrl_fixpoint s (normalizedNetloc u)
      (tailPathParams (removeUnsafeUrlBytes t)).1
      (tailPathParams (removeUnsafeUrlBytes t)).2
      (tailQuery (removeUnsafeUrlBytes t)) hnf h4

/-- C9 (amended): one pass of `normalize_url` is a fixed point of
normalization whenever its result has a non-empty host, no residual
default-port suffix on the host, and no surrounding whitespace; without
those provisos idempotence fails (see the counterexample). -/
theorem normalize_url_idempotent_amended (u : Chars)
    (h1 : normalizedNetloc u ≠ [])
    (h2 : ¬ (endsWithChars (strChars ":80") (normalizedNetloc u) = true ∧
        (normalizeParts u).scheme = strChars "http"))
    (h3 : ¬ (endsWithChars (strChars ":443") (normalizedNetloc u) = true ∧
        (normalizeParts u).scheme = strChars "https"))
    (h4 : pyStrip (normalizeUrl u) = normalizeUrl u) :
    normalizeUrl (normalizeUrl u) = normalizeUrl u := by
  by_cases hu : u = []
  · exfalso
    apply h1
    rw [hu]
    decide
  rcases Bool.or_eq_true _ _ |>.mp (hasHttpScheme_preprocess u) with hcase | hcase
  · obtain ⟨t, ht⟩ := (startsWithChars_iff _ _).mp hcase
    have hshape : preprocessUrl u = strChars "http" ++ ':' :: '/' :: '/' :: t := ht
    have hP : normalizeParts u =
        { pyUrlparseTail (removeUnsafeUrlBytes t) with scheme := strChars "http" } := by
      unfold normalizeParts
      rw [hshape, pyUrlparse_http_eq]
    refine normalize_amended_main u t (strChars "http") (Or.inl rfl) hP h1 ?_ ?_ h4 hu
    · rw [hP] at h2
      exact fun hc => h2 ⟨hc.1, rfl⟩
    · intro hc
      exact absurd hc.2 (by decide)
  · obtain ⟨t, ht⟩ := (startsWithChars_iff _ _).mp hcase
    have hshape : preprocessUrl u = strChars "https" ++ ':' :: '/' :: '/' :: t := ht
    have hP : normalizeParts u =
        { pyUrlparseTail (removeUnsafeUrlBytes t) with scheme := strChars "https" } := by
      unfold normalizeParts
      rw [hshape, pyUrlparse_https_eq]
    refine normalize_amended_main u t (strChars "https") (Or.inr rfl) hP h1 ?_ ?_ h4 hu
    · intro hc
      exact absurd hc.2 (by decide)
    · rw [hP] at h3
      exact fun hc => h3 ⟨hc.1, rfl⟩

/-- Witness for C9: the amended idempotence theorem applies to the concrete
input "http://Example.COM/a", whose normal form is "http://example.com/a". -/
theorem normalize_url_idempotent_amended_witness :
    normalizedNetloc (strChars "http://Example.COM/a") ≠ [] ∧
    normalizeUrl (normalizeUrl (strChars "http://Example.COM/a")) =
      normalizeUrl (strChars "http://Example.COM/a") :=
  ⟨by decide, normalize_url_idempotent_amended (strChars "http://Example.COM/a")
    (by decide) (by decide) (by decide) (by decide)⟩

end CrawlImage
